import Mathlib

/-!
# Verification of the CaGreS causal-DAG summarization algorithm

A shallow embedding of `src/algo.py` (the `CaGreS` greedy DAG-summarization
algorithm and its grounding inverse), together with proofs and refutations of
the specification's claims.

The Python code manipulates `networkx.DiGraph` values whose nodes are strings
(cluster nodes are delimiter-joined labels, the delimiter being `",\n"`).
We model a directed graph as a pair of lists: an insertion-ordered node list
and an insertion-ordered edge list.  The networkx primitives the source uses
(`add_edge`, `remove_node`, `contracted_nodes`, `relabel_nodes`,
`topological_sort`, `is_directed_acyclic_graph`, `predecessors`,
`successors`, `has_edge`) are modelled below, by translating their library
implementations; the repository functions are then translated line by line.

The Python similarity table maps pairs of labels to float scores and the
threshold is a float; scores are modelled as rationals (the source only
compares them with `<` and takes `max`, and no claim depends on float
rounding).  `random.choice([True, False])` is modelled by an explicit stream
of booleans `coins : Nat → Bool` together with a counter giving the index of
the next flip.
-/

namespace CausalDag

/-- A directed graph, as networkx represents it: a list of nodes in insertion
order and a list of directed edges in insertion order.  In every graph
networkx actually builds, the node list and the edge list are duplicate-free
and every edge endpoint is a node; this well-formedness is `Graph.WF` below. -/
structure Graph where
  nodes : List String
  edges : List (String × String)
deriving DecidableEq, Repr

/-- Well-formedness: what is true of every `networkx.DiGraph`. -/
def Graph.WF (G : Graph) : Prop :=
  G.nodes.Nodup ∧ G.edges.Nodup ∧ ∀ e ∈ G.edges, e.1 ∈ G.nodes ∧ e.2 ∈ G.nodes

instance (G : Graph) : Decidable G.WF := by
  unfold Graph.WF; infer_instance

/-- networkx `G.add_node(n)`: appends the node if absent. -/
def addNode (G : Graph) (n : String) : Graph :=
  if n ∈ G.nodes then G else { G with nodes := G.nodes ++ [n] }

/-- Append the edge `(u, v)` if absent (endpoints assumed present). -/
def addEdgeRaw (G : Graph) (u v : String) : Graph :=
  if (u, v) ∈ G.edges then G else { G with edges := G.edges ++ [(u, v)] }

/-- networkx `G.add_edge(u, v)`: adds missing endpoints, then the edge if
absent (a `DiGraph` keeps at most one copy of an edge). -/
def addEdge (G : Graph) (u v : String) : Graph :=
  addEdgeRaw (addNode (addNode G u) v) u v

/-- networkx `G.add_edges_from(es)`. -/
def addEdges (G : Graph) (es : List (String × String)) : Graph :=
  es.foldl (fun g e => addEdge g e.1 e.2) G

/-- networkx `G.remove_node(n)`: drops the node and every incident edge. -/
def removeNode (G : Graph) (n : String) : Graph :=
  { nodes := G.nodes.filter (fun x => x ≠ n),
    edges := G.edges.filter (fun e => e.1 ≠ n ∧ e.2 ≠ n) }

/-- networkx `G.has_edge(u, v)`. -/
def hasEdge (G : Graph) (u v : String) : Bool :=
  decide ((u, v) ∈ G.edges)

/-- networkx `G.predecessors(u)`: the sources of the edges into `u`. -/
def predecessors (G : Graph) (u : String) : List String :=
  (G.edges.filter (fun e => e.2 = u)).map (fun e => e.1)

/-- networkx `G.successors(u)`: the targets of the edges out of `u`. -/
def successors (G : Graph) (u : String) : List String :=
  (G.edges.filter (fun e => e.1 = u)).map (fun e => e.2)

/-! ## The cluster-label string model

Cluster labels are the members joined with `",\n"`; the source recovers the
members with `label.split(',\n')` and tests clusterhood with the Python
substring test `',\n' in label`.  We model both on the underlying character
lists. -/

/-- The cluster delimiter `",\n"`, as a character list. -/
def delim : List Char := [',', '\n']

/-- Python's substring test `needle in hay` on character lists. -/
def isSubstrList (needle : List Char) : List Char → Bool
  | [] => needle.isEmpty
  | c :: rest => needle.isPrefixOf (c :: rest) || isSubstrList needle rest

/-- Python's substring test `needle in hay` on strings. -/
def isSubstr (needle hay : String) : Bool :=
  isSubstrList needle.data hay.data

/-- Python `',\n' in s`: does the label contain the cluster delimiter? -/
def hasDelim (s : String) : Bool :=
  isSubstrList delim s.data

/-- Python `str.split(",\n")` on character lists: cut at every (non
overlapping, leftmost-first) occurrence of `delim`. -/
def splitDelim : List Char → List (List Char)
  | [] => [[]]
  | [c] => [[c]]
  | c1 :: c2 :: rest =>
    if c1 = ',' ∧ c2 = '\n' then
      [] :: splitDelim rest
    else
      match splitDelim (c2 :: rest) with
      | [] => [[c1]]
      | s :: ss => (c1 :: s) :: ss

/-- Python `label.split(',\n')`: the atomic members of a (cluster) label. -/
def splitLabel (s : String) : List String :=
  (splitDelim s.data).map (fun l => String.mk l)

/-! ## Topological sort and acyclicity (networkx library functions)

`nx.topological_sort` emits the nodes generation by generation: all current
in-degree-0 nodes in node order, then the next layer of the graph with those
nodes (and their out-edges) removed, and so on.  It exhausts the nodes iff
the graph is acyclic, which is exactly what `nx.is_directed_acyclic_graph`
tests.  The recursion is fuelled by the node count: every productive layer
removes at least one node. -/

/-- Does `n` have no incoming edge in `es`? -/
def noIncoming (es : List (String × String)) (n : String) : Bool :=
  (es.filter (fun e => e.2 = n)).isEmpty

/-- The current generation: the nodes with no incoming edge. -/
def topoZero (ns : List String) (es : List (String × String)) : List String :=
  ns.filter (fun n => noIncoming es n)

/-- The nodes left for the following generations. -/
def topoRest (ns : List String) (es : List (String × String)) : List String :=
  ns.filter (fun n => ¬ noIncoming es n)

/-- The edges left once the current generation is removed. -/
def topoEdgesRest (ns : List String) (es : List (String × String)) :
    List (String × String) :=
  es.filter (fun e => e.1 ∉ topoZero ns es)

/-- One-generation-at-a-time Kahn topological sort (fuelled). -/
def topoGenAux : Nat → List String → List (String × String) → List String
  | 0, _, _ => []
  | fuel + 1, ns, es =>
    if (topoZero ns es).isEmpty then []
    else topoZero ns es ++ topoGenAux fuel (topoRest ns es) (topoEdgesRest ns es)

/-- networkx `nx.topological_sort`. -/
def topological_sort (G : Graph) : List String :=
  topoGenAux G.nodes.length G.nodes G.edges

/-- networkx `nx.is_directed_acyclic_graph`: the topological sort exhausts
the nodes. -/
def is_directed_acyclic_graph (G : Graph) : Bool :=
  decide ((topological_sort G).length = G.nodes.length)

/-- The edge relation of a graph. -/
def EdgeRel (G : Graph) (x y : String) : Prop :=
  (x, y) ∈ G.edges

/-- Mathematical acyclicity: no node lies on a directed cycle. -/
def Acyclic (G : Graph) : Prop :=
  ∀ a, ¬ Relation.TransGen (EdgeRel G) a a

/-- The edges `nx.contracted_nodes(G, u, v, self_loops)` re-adds after
removing `v`: every in-edge and out-edge of `v`, redirected to `u`, an edge
between `u` and `v` (dropped unless `self_loops`) becoming a self-loop at
`u`. -/
def contractedNewEdges (G : Graph) (u v : String) (self_loops : Bool) :
    List (String × String) :=
  (G.edges.filter (fun e => e.2 = v ∧ (self_loops ∨ e.1 ≠ u))).map
      (fun e => ((if e.1 ≠ v then e.1 else u), u)) ++
    (G.edges.filter (fun e => e.1 = v ∧ (self_loops ∨ e.2 ≠ u))).map
      (fun e => (u, (if e.2 ≠ v then e.2 else u)))

/-- networkx `nx.contracted_nodes(G, u, v, self_loops)`: copy `G`, remove
`v`, then re-add each edge previously incident to `v` redirected to `u`. -/
def contracted_nodes (G : Graph) (u v : String) (self_loops : Bool) : Graph :=
  addEdges (removeNode G v) (contractedNewEdges G u v self_loops)

/-- The renaming map of `nx.relabel_nodes(G, {old: new})`. -/
def rename (old new x : String) : String :=
  if x = old then new else x

/-- networkx `nx.relabel_nodes(G, {old: new}, copy=True)`: rebuild the graph
adding every node and edge with `old` renamed to `new`. -/
def relabel_node (G : Graph) (old new : String) : Graph :=
  addEdges ((G.nodes.map (rename old new)).foldl addNode (Graph.mk [] []))
    (G.edges.map (fun e => (rename old new e.1, rename old new e.2)))

/-! ## The repository functions (`src/algo.py`), translated line by line -/

/-- `merge_nodes(G, n1, n2, self_loops=False)`: contract `n2` into `n1`,
then rename the merged node to the combined label `n1 + ",\n" + n2`. -/
def merge_nodes (G : Graph) (n1 n2 : String) (self_loops : Bool) : Graph :=
  relabel_node (contracted_nodes G n1 n2 self_loops) n1 (n1 ++ ",\n" ++ n2)

/-- A similarity table: given two atomic labels, their similarity score.
(`similarity_df[s1][s2]` in the source; per the spec a lookup for a pair the
caller did not cover is a precondition violation, so the model is total.) -/
abbrev Table := String → String → ℚ

/-- `check_semantic(node1, node2, similarity_df, semantic_threshold)`:
passes when no table is supplied; otherwise every cross pair of atomic
members must have `max(df[s1][s2], df[s2][s1]) ≥ threshold`. -/
def check_semantic (node1 node2 : String) (similarity_df : Option Table)
    (semantic_threshold : ℚ) : Bool :=
  match similarity_df with
  | none => true
  | some df =>
    (splitLabel node1).all fun s1 =>
      (splitLabel node2).all fun s2 =>
        ¬ (max (df s1 s2) (df s2 s1) < semantic_threshold)

/-- `a_valid_pair(U, V, H, similarity_df, semantic_threshold)`: the semantic
gate, then the acyclicity probe — merge the pair in a scratch copy with
`self_loops=True` and require the result to be a DAG. -/
def a_valid_pair (U V : String) (H : Graph) (similarity_df : Option Table)
    (semantic_threshold : ℚ) : Bool :=
  check_semantic U V similarity_df semantic_threshold &&
    is_directed_acyclic_graph (merge_nodes H U V true)

/-- `get_cost(U, V, H)` (Algorithm 2): base cost `sizeU * sizeV` when the
edge `U→V` is absent, plus the parent- and child-divergence penalties.  The
Python sets `parentsU - parentsV` etc. are modelled by list filters (under
`Graph.WF` the predecessor and successor lists are duplicate-free). -/
def get_cost (U V : String) (H : Graph) : Nat :=
  let subU := splitLabel U
  let subV := splitLabel V
  let sizeU := subU.length
  let sizeV := subV.length
  let base := if hasEdge H U V then 0 else sizeU * sizeV
  let parentsU := predecessors H U
  let parentsV := predecessors H V
  let parentsOnlyU := parentsU.filter (fun p => p ∉ parentsV)
  let parentsOnlyV := parentsV.filter (fun p => p ∉ parentsU)
  let childrenU := successors H U
  let childrenV := successors H V
  let childrenOnlyU := childrenU.filter (fun c => c ∉ childrenV)
  let childrenOnlyV := childrenV.filter (fun c => c ∉ childrenU)
  base + parentsOnlyU.length * sizeV + parentsOnlyV.length * sizeU
    + childrenOnlyU.length * sizeV + childrenOnlyV.length * sizeU

/-- `itertools.combinations(l, 2)`, in enumeration order. -/
def combinations : List String → List (String × String)
  | [] => []
  | x :: xs => xs.map (fun y => (x, y)) ++ combinations xs

/-- The scan of `low_cost_merges`: the first pair (in `combinations` order)
that is valid and has cost `≤ 1`. -/
def findLowCostPair (G : Graph) (similarity_df : Option Table)
    (semantic_threshold : ℚ) : Option (String × String) :=
  (combinations G.nodes).find? fun p =>
    a_valid_pair p.1 p.2 G similarity_df semantic_threshold &&
      decide (get_cost p.1 p.2 G ≤ 1)

/-- The `while True` loop of `low_cost_merges`, fuelled: merge the first
valid pair of cost `≤ 1` and rescan, until none is found.  Every merge
removes a node, so `G.nodes.length` is enough fuel. -/
def low_cost_aux (similarity_df : Option Table) (semantic_threshold : ℚ) :
    Nat → Graph → Graph
  | 0, G => G
  | fuel + 1, G =>
    match findLowCostPair G similarity_df semantic_threshold with
    | none => G
    | some p => low_cost_aux similarity_df semantic_threshold fuel
        (merge_nodes G p.1 p.2 false)

/-- `low_cost_merges(dag, similarity_df=None, semantic_threshold=0.0)`. -/
def low_cost_merges (dag : Graph) (similarity_df : Option Table)
    (semantic_threshold : ℚ) : Graph :=
  low_cost_aux similarity_df semantic_threshold dag.nodes.length dag

/-- Python `math.isclose(a, b, rel_tol=1e-9)` on the (integer) costs, in
exact arithmetic.  (The source compares Python ints through floats; for the
values any claim touches the test is simply equality.) -/
def isclose (a b : Nat) : Bool :=
  decide (|(a : ℚ) - (b : ℚ)| ≤ mkRat 1 1000000000 * max (a : ℚ) (b : ℚ))

/-- The inner `for (U, V) in itertools.combinations(H.nodes, 2)` loop of
`CaGreS`: track `min_cost` (`none` is `math.inf`) and `best_pair`, flipping
a coin on every tie.  Note the source calls
`a_valid_pair(U, V, H, similarity_df, semantic_threshold=0.0)` with the
literal `0.0`, not the `semantic_threshold` parameter of `CaGreS`.
Returns the selected pair and the next coin index. -/
def scanPairs (H : Graph) (similarity_df : Option Table) (coins : Nat → Bool) :
    List (String × String) → Option Nat → Option (String × String) → Nat →
    Option (String × String) × Nat
  | [], _, best, ci => (best, ci)
  | (U, V) :: rest, min_cost, best, ci =>
    if a_valid_pair U V H similarity_df 0 then
      match min_cost with
      | none =>
        scanPairs H similarity_df coins rest (some (get_cost U V H)) (some (U, V)) ci
      | some m =>
        if get_cost U V H < m then
          scanPairs H similarity_df coins rest (some (get_cost U V H)) (some (U, V)) ci
        else if isclose (get_cost U V H) m then
          if coins ci then
            scanPairs H similarity_df coins rest (some m) (some (U, V)) (ci + 1)
          else
            scanPairs H similarity_df coins rest (some m) best (ci + 1)
        else
          scanPairs H similarity_df coins rest (some m) best ci
    else
      scanPairs H similarity_df coins rest min_cost best ci

/-- The `while len(H.nodes) > k` loop of `CaGreS`, fuelled (every merge
removes a node). -/
def cagres_loop (k : Nat) (similarity_df : Option Table) (coins : Nat → Bool) :
    Nat → Graph → Nat → Graph
  | 0, H, _ => H
  | fuel + 1, H, ci =>
    if H.nodes.length ≤ k then H
    else
      match scanPairs H similarity_df coins (combinations H.nodes) none none ci with
      | (none, _) => H
      | (some p, ci') => cagres_loop k similarity_df coins fuel
          (merge_nodes H p.1 p.2 false) ci'

/-- `CaGreS(dag, k, similarity_df=None, semantic_threshold=0.0)`: the
pre-reduction pass (called as `low_cost_merges(H, similarity_df)`, i.e. with
the default threshold `0.0`), then the greedy loop.  The `semantic_threshold`
parameter is accepted but never used by the source — both validity checks run
with threshold `0.0`. -/
def CaGreS (dag : Graph) (k : Nat) (similarity_df : Option Table)
    (semantic_threshold : ℚ) (coins : Nat → Bool) : Graph :=
  let H := dag
  let H := low_cost_merges H similarity_df 0
  cagres_loop k similarity_df coins (H.nodes.length + 1) H 0

/-- The graphs the `CaGreS` loop passes through: the same recursion as
`cagres_loop`, additionally recording the state before each merge.  The
first element is the loop's initial graph and the last is its result. -/
def cagres_loop_trace (k : Nat) (similarity_df : Option Table)
    (coins : Nat → Bool) : Nat → Graph → Nat → List Graph
  | 0, H, _ => [H]
  | fuel + 1, H, ci =>
    if H.nodes.length ≤ k then [H]
    else
      match scanPairs H similarity_df coins (combinations H.nodes) none none ci with
      | (none, _) => [H]
      | (some p, ci') => H :: cagres_loop_trace k similarity_df coins fuel
          (merge_nodes H p.1 p.2 false) ci'

/-- All intermediate states of `CaGreS` after the pre-reduction pass: the
head is the graph `low_cost_merges` returns, and the last element is the
graph `CaGreS` returns. -/
def cagres_states (dag : Graph) (k : Nat) (similarity_df : Option Table)
    (coins : Nat → Bool) : List Graph :=
  let H := low_cost_merges dag similarity_df 0
  cagres_loop_trace k similarity_df coins (H.nodes.length + 1) H 0

/-- The intra-cluster wiring loop of `get_grounded_dag_auxiliary`:
`for node_before in nodes: if node_before not in n: continue;
if node_before == new_node: break; G.add_edge(node_before, new_node)`. -/
def intraEdges (new_node n : String) : Graph → List String → Graph
  | G, [] => G
  | G, node_before :: rest =>
    if ¬ isSubstr node_before n then intraEdges new_node n G rest
    else if node_before = new_node then G
    else intraEdges new_node n (addEdge G node_before new_node) rest

/-- The `for parent in parents: for new_node in new_nodes: G.add_edge(parent,
new_node)` loop of `get_grounded_dag_auxiliary`. -/
def wireParents (new_nodes parents : List String) (G : Graph) : Graph :=
  parents.foldl
    (fun g parent => new_nodes.foldl (fun g2 m => addEdge g2 parent m) g) G

/-- The `for child in children: for new_node in new_nodes:
G.add_edge(new_node, child)` loop. -/
def wireChildren (new_nodes children : List String) (G : Graph) : Graph :=
  children.foldl
    (fun g child => new_nodes.foldl (fun g2 m => addEdge g2 m child) g) G

/-- The `for new_node in new_nodes:` wrapper around the intra-cluster
`node_before` loop. -/
def wireIntra (new_nodes : List String) (n : String) (order : List String)
    (G : Graph) : Graph :=
  new_nodes.foldl (fun g m => intraEdges m n g order) G

/-- The body of `get_grounded_dag_auxiliary` for one cluster node `n`: wire
every predecessor to every member, every member to every successor, run the
intra-cluster loop for each member, then remove the cluster node.
(`parents` and `children` are read from `G` before any edge is added, as in
the source.) -/
def processCluster (order : List String) (G : Graph) (n : String) : Graph :=
  removeNode
    (wireIntra (splitLabel n) n order
      (wireChildren (splitLabel n) (successors G n)
        (wireParents (splitLabel n) (predecessors G n) G))) n

/-- `get_grounded_dag_auxiliary(summary_dag, nodes)`: process every
delimiter-containing node of the (unmodified) input, threading the working
copy. -/
def get_grounded_dag_auxiliary (summary_dag : Graph) (nodes : List String) :
    Graph :=
  summary_dag.nodes.foldl
    (fun G n => if hasDelim n then processCluster nodes G n else G) summary_dag

/-- `get_grounded_dag(summary_dag)`. -/
def get_grounded_dag (summary_dag : Graph) : Graph :=
  get_grounded_dag_auxiliary summary_dag (topological_sort summary_dag)

/-! ## Concrete graphs used by the scenario claims -/

/-- The 4-node chain `A→B→C→D`. -/
def chain4 : Graph :=
  { nodes := ["A", "B", "C", "D"],
    edges := [("A", "B"), ("B", "C"), ("C", "D")] }

/-- Three isolated nodes `A`, `B`, `C`. -/
def iso3 : Graph := { nodes := ["A", "B", "C"], edges := [] }

/-- Two isolated nodes `A`, `B`. -/
def iso2 : Graph := { nodes := ["A", "B"], edges := [] }

/-- A similarity table rating every pair `1/2`. -/
def halfTable : Table := fun _ _ => mkRat 1 2

/-- A summary graph in which one cluster label is a substring of another
cluster's label. -/
def subLabelGraph : Graph :=
  { nodes := ["A,\nB", "A,\nB,\nC"], edges := [] }

/-! ## Basic lemmas about the graph primitives -/

theorem mem_addNode_nodes {G : Graph} {n x : String} :
    x ∈ (addNode G n).nodes ↔ x ∈ G.nodes ∨ x = n := by
  unfold addNode
  by_cases h : n ∈ G.nodes
  · rw [if_pos h]
    exact ⟨Or.inl, fun hx => hx.elim id (fun e => e ▸ h)⟩
  · rw [if_neg h]
    simp [List.mem_append]

theorem addNode_edges (G : Graph) (n : String) : (addNode G n).edges = G.edges := by
  unfold addNode; split <;> rfl

theorem addEdgeRaw_nodes (G : Graph) (u v : String) :
    (addEdgeRaw G u v).nodes = G.nodes := by
  unfold addEdgeRaw; split <;> rfl

theorem mem_addEdgeRaw_edges {G : Graph} {u v : String} {e : String × String} :
    e ∈ (addEdgeRaw G u v).edges ↔ e ∈ G.edges ∨ e = (u, v) := by
  unfold addEdgeRaw
  by_cases h : (u, v) ∈ G.edges
  · rw [if_pos h]
    exact ⟨Or.inl, fun hx => hx.elim id (fun e' => e' ▸ h)⟩
  · rw [if_neg h]
    simp [List.mem_append]

theorem mem_addEdge_nodes {G : Graph} {u v x : String} :
    x ∈ (addEdge G u v).nodes ↔ x ∈ G.nodes ∨ x = u ∨ x = v := by
  unfold addEdge
  rw [addEdgeRaw_nodes]
  simp [mem_addNode_nodes, or_assoc]

theorem mem_addEdge_edges {G : Graph} {u v : String} {e : String × String} :
    e ∈ (addEdge G u v).edges ↔ e ∈ G.edges ∨ e = (u, v) := by
  unfold addEdge
  rw [mem_addEdgeRaw_edges, addNode_edges, addNode_edges]

theorem mem_addEdges_edges {es : List (String × String)} {G : Graph}
    {e : String × String} :
    e ∈ (addEdges G es).edges ↔ e ∈ G.edges ∨ e ∈ es := by
  induction es generalizing G with
  | nil => simp [addEdges]
  | cons a es ih =>
    show e ∈ (addEdges (addEdge G a.1 a.2) es).edges ↔ _
    rw [ih, mem_addEdge_edges]
    constructor
    · rintro ((h | rfl) | h)
      · exact Or.inl h
      · exact Or.inr (List.mem_cons_self _ _)
      · exact Or.inr (List.mem_cons_of_mem _ h)
    · rintro (h | h)
      · exact Or.inl (Or.inl h)
      · rcases List.mem_cons.mp h with rfl | h
        · exact Or.inl (Or.inr rfl)
        · exact Or.inr h

theorem mem_addEdges_nodes_mono {es : List (String × String)} {G : Graph}
    {x : String} (h : x ∈ G.nodes) : x ∈ (addEdges G es).nodes := by
  induction es generalizing G with
  | nil => exact h
  | cons a es ih =>
    exact ih (mem_addEdge_nodes.mpr (Or.inl h))

theorem addEdge_nodes_of_present {G : Graph} {u v : String}
    (hu : u ∈ G.nodes) (hv : v ∈ G.nodes) : (addEdge G u v).nodes = G.nodes := by
  unfold addEdge
  rw [addEdgeRaw_nodes]
  have h1 : addNode G u = G := by unfold addNode; rw [if_pos hu]
  rw [h1]
  unfold addNode; rw [if_pos hv]

theorem addEdges_nodes_of_present {es : List (String × String)} {G : Graph}
    (h : ∀ e ∈ es, e.1 ∈ G.nodes ∧ e.2 ∈ G.nodes) :
    (addEdges G es).nodes = G.nodes := by
  induction es generalizing G with
  | nil => rfl
  | cons a es ih =>
    show (addEdges (addEdge G a.1 a.2) es).nodes = G.nodes
    have ha := h a (List.mem_cons_self _ _)
    have hedge : (addEdge G a.1 a.2).nodes = G.nodes :=
      addEdge_nodes_of_present ha.1 ha.2
    rw [ih, hedge]
    intro e he
    rw [hedge]
    exact h e (List.mem_cons_of_mem _ he)

theorem mem_removeNode_nodes {G : Graph} {n x : String} :
    x ∈ (removeNode G n).nodes ↔ x ∈ G.nodes ∧ x ≠ n := by
  simp [removeNode, List.mem_filter]

theorem mem_removeNode_edges {G : Graph} {n : String} {e : String × String} :
    e ∈ (removeNode G n).edges ↔ e ∈ G.edges ∧ e.1 ≠ n ∧ e.2 ≠ n := by
  simp [removeNode, List.mem_filter]

/-! ### Well-formedness preservation -/

theorem addNode_WF {G : Graph} (h : G.WF) (n : String) : (addNode G n).WF := by
  obtain ⟨h1, h2, h3⟩ := h
  unfold addNode
  split
  · exact ⟨h1, h2, h3⟩
  · next hn =>
    refine ⟨?_, h2, ?_⟩
    · simp [List.nodup_append, h1, hn]
    · intro e he
      have := h3 e he
      simp [List.mem_append, this.1, this.2]

theorem addEdgeRaw_WF {G : Graph} (h : G.WF) {u v : String}
    (hu : u ∈ G.nodes) (hv : v ∈ G.nodes) : (addEdgeRaw G u v).WF := by
  obtain ⟨w1, w2, w3⟩ := h
  unfold addEdgeRaw
  split
  · exact ⟨w1, w2, w3⟩
  · next he =>
    refine ⟨w1, ?_, ?_⟩
    · simp [List.nodup_append, w2, he]
    · intro e hmem
      rcases List.mem_append.mp hmem with hmem | hmem
      · exact w3 e hmem
      · rcases List.mem_singleton.mp hmem with rfl
        exact ⟨hu, hv⟩

theorem addEdge_WF {G : Graph} (h : G.WF) (u v : String) : (addEdge G u v).WF := by
  refine addEdgeRaw_WF (addNode_WF (addNode_WF h u) v) ?_ ?_
  · exact mem_addNode_nodes.mpr (Or.inl (mem_addNode_nodes.mpr (Or.inr rfl)))
  · exact mem_addNode_nodes.mpr (Or.inr rfl)

theorem addEdges_WF {es : List (String × String)} {G : Graph} (h : G.WF) :
    (addEdges G es).WF := by
  induction es generalizing G with
  | nil => exact h
  | cons a es ih => exact ih (addEdge_WF h a.1 a.2)

theorem removeNode_WF {G : Graph} (h : G.WF) (n : String) : (removeNode G n).WF := by
  obtain ⟨h1, h2, h3⟩ := h
  refine ⟨h1.filter _, h2.filter _, ?_⟩
  intro e he
  rw [mem_removeNode_edges] at he
  obtain ⟨he, hn1, hn2⟩ := he
  exact ⟨mem_removeNode_nodes.mpr ⟨(h3 e he).1, hn1⟩,
    mem_removeNode_nodes.mpr ⟨(h3 e he).2, hn2⟩⟩

theorem emptyGraph_WF : (Graph.mk [] []).WF := by
  refine ⟨List.nodup_nil, List.nodup_nil, ?_⟩
  intro e he
  simp at he

theorem foldl_addNode_WF {l : List String} {G : Graph} (h : G.WF) :
    (l.foldl addNode G).WF := by
  induction l generalizing G with
  | nil => exact h
  | cons a l ih => exact ih (addNode_WF h a)

theorem mem_foldl_addNode {l : List String} {G : Graph} {x : String} :
    x ∈ (l.foldl addNode G).nodes ↔ x ∈ G.nodes ∨ x ∈ l := by
  induction l generalizing G with
  | nil => simp
  | cons a l ih =>
    show x ∈ (l.foldl addNode (addNode G a)).nodes ↔ _
    rw [ih, mem_addNode_nodes]
    constructor
    · rintro ((h | rfl) | h)
      · exact Or.inl h
      · exact Or.inr (List.mem_cons_self _ _)
      · exact Or.inr (List.mem_cons_of_mem _ h)
    · rintro (h | h)
      · exact Or.inl (Or.inl h)
      · rcases List.mem_cons.mp h with rfl | h
        · exact Or.inl (Or.inr rfl)
        · exact Or.inr h

theorem foldl_addNode_edges (l : List String) (G : Graph) :
    (l.foldl addNode G).edges = G.edges := by
  induction l generalizing G with
  | nil => rfl
  | cons a l ih =>
    show (l.foldl addNode (addNode G a)).edges = _
    rw [ih, addNode_edges]

theorem foldl_addNode_length {l : List String} {G : Graph} :
    (l.foldl addNode G).nodes.length ≤ G.nodes.length + l.length := by
  induction l generalizing G with
  | nil => simp
  | cons a l ih =>
    show (l.foldl addNode (addNode G a)).nodes.length ≤ _
    refine le_trans ih ?_
    have : (addNode G a).nodes.length ≤ G.nodes.length + 1 := by
      unfold addNode
      split
      · omega
      · simp
    simp only [List.length_cons]
    omega

theorem relabel_node_WF (G : Graph) (old new : String) : (relabel_node G old new).WF :=
  addEdges_WF (foldl_addNode_WF emptyGraph_WF)

theorem contracted_nodes_WF {G : Graph} (h : G.WF) (u v : String) (b : Bool) :
    (contracted_nodes G u v b).WF := addEdges_WF (removeNode_WF h v)

/-- `merge_nodes` always produces a well-formed graph: `relabel_node`
rebuilds the graph from scratch with `add_node`/`add_edge`. -/
theorem merge_nodes_WF (G : Graph) (n1 n2 : String) (b : Bool) :
    (merge_nodes G n1 n2 b).WF := relabel_node_WF _ _ _

/-! ### Characterizations of `relabel_node`, `contracted_nodes`,
`merge_nodes` -/

theorem mem_relabel_node_edges {G : Graph} {old new : String}
    {e : String × String} :
    e ∈ (relabel_node G old new).edges ↔
      e ∈ G.edges.map (fun e => (rename old new e.1, rename old new e.2)) := by
  unfold relabel_node
  rw [mem_addEdges_edges, foldl_addNode_edges]
  simp

theorem mem_relabel_node_nodes_of_closed {G : Graph} {old new x : String}
    (hcl : ∀ e ∈ G.edges, e.1 ∈ G.nodes ∧ e.2 ∈ G.nodes) :
    x ∈ (relabel_node G old new).nodes ↔ x ∈ G.nodes.map (rename old new) := by
  unfold relabel_node
  rw [addEdges_nodes_of_present, mem_foldl_addNode]
  · simp
  · intro e he
    rcases List.mem_map.mp he with ⟨e', he', rfl⟩
    constructor
    · exact mem_foldl_addNode.mpr (Or.inr (List.mem_map_of_mem _ (hcl e' he').1))
    · exact mem_foldl_addNode.mpr (Or.inr (List.mem_map_of_mem _ (hcl e' he').2))

theorem relabel_node_nodes_length_le {G : Graph} {old new : String}
    (hcl : ∀ e ∈ G.edges, e.1 ∈ G.nodes ∧ e.2 ∈ G.nodes) :
    (relabel_node G old new).nodes.length ≤ G.nodes.length := by
  unfold relabel_node
  rw [addEdges_nodes_of_present]
  · calc ((G.nodes.map (rename old new)).foldl addNode (Graph.mk [] [])).nodes.length
        ≤ (Graph.mk [] []).nodes.length + (G.nodes.map (rename old new)).length :=
          foldl_addNode_length
      _ = G.nodes.length := by simp
  · intro e he
    rcases List.mem_map.mp he with ⟨e', he', rfl⟩
    constructor
    · exact mem_foldl_addNode.mpr (Or.inr (List.mem_map_of_mem _ (hcl e' he').1))
    · exact mem_foldl_addNode.mpr (Or.inr (List.mem_map_of_mem _ (hcl e' he').2))

/-- The new edges of a contraction have endpoints among `u` and the
surviving nodes, provided the input is edge-closed. -/
theorem contractedNewEdges_endpoints {G : Graph} {u v : String} {b : Bool}
    (hcl : ∀ e ∈ G.edges, e.1 ∈ G.nodes ∧ e.2 ∈ G.nodes)
    (hu : u ∈ G.nodes) (huv : u ≠ v) :
    ∀ e ∈ contractedNewEdges G u v b,
      e.1 ∈ (removeNode G v).nodes ∧ e.2 ∈ (removeNode G v).nodes := by
  intro e he
  have humem : u ∈ (removeNode G v).nodes := mem_removeNode_nodes.mpr ⟨hu, huv⟩
  rcases List.mem_append.mp he with he | he
  · rcases List.mem_map.mp he with ⟨e', he', rfl⟩
    have he'' := List.mem_filter.mp he'
    refine ⟨?_, humem⟩
    by_cases h1 : e'.1 ≠ v
    · simp only [if_pos h1]
      exact mem_removeNode_nodes.mpr ⟨(hcl e' he''.1).1, h1⟩
    · simp only [if_neg h1]
      exact humem
  · rcases List.mem_map.mp he with ⟨e', he', rfl⟩
    have he'' := List.mem_filter.mp he'
    refine ⟨humem, ?_⟩
    by_cases h2 : e'.2 ≠ v
    · simp only [if_pos h2]
      exact mem_removeNode_nodes.mpr ⟨(hcl e' he''.1).2, h2⟩
    · simp only [if_neg h2]
      exact humem

theorem contracted_nodes_nodes {G : Graph} {u v : String} {b : Bool}
    (hcl : ∀ e ∈ G.edges, e.1 ∈ G.nodes ∧ e.2 ∈ G.nodes)
    (hu : u ∈ G.nodes) (huv : u ≠ v) :
    (contracted_nodes G u v b).nodes = (removeNode G v).nodes := by
  unfold contracted_nodes
  exact addEdges_nodes_of_present (contractedNewEdges_endpoints hcl hu huv)

theorem mem_contracted_nodes_edges {G : Graph} {u v : String} {b : Bool}
    {e : String × String} :
    e ∈ (contracted_nodes G u v b).edges ↔
      e ∈ (removeNode G v).edges ∨ e ∈ contractedNewEdges G u v b := by
  unfold contracted_nodes
  exact mem_addEdges_edges

/-- Dropping self-loops only removes re-added edges: the contraction with
`self_loops = false` has an edge set included in the one with
`self_loops = true`. -/
theorem contractedNewEdges_false_sub_true {G : Graph} {u v : String} :
    ∀ e ∈ contractedNewEdges G u v false, e ∈ contractedNewEdges G u v true := by
  intro e he
  rcases List.mem_append.mp he with he | he <;>
    rcases List.mem_map.mp he with ⟨e', he', rfl⟩ <;>
    have he'' := List.mem_filter.mp he'
  · refine List.mem_append.mpr (Or.inl (List.mem_map_of_mem _ ?_))
    refine List.mem_filter.mpr ⟨he''.1, ?_⟩
    have := of_decide_eq_true he''.2
    simp [this.1]
  · refine List.mem_append.mpr (Or.inr (List.mem_map_of_mem _ ?_))
    refine List.mem_filter.mpr ⟨he''.1, ?_⟩
    have := of_decide_eq_true he''.2
    simp [this.1]

theorem merge_nodes_false_edges_sub_true {G : Graph} {n1 n2 : String} :
    ∀ e ∈ (merge_nodes G n1 n2 false).edges, e ∈ (merge_nodes G n1 n2 true).edges := by
  intro e he
  unfold merge_nodes at he ⊢
  rw [mem_relabel_node_edges] at he ⊢
  rcases List.mem_map.mp he with ⟨e', he', rfl⟩
  refine List.mem_map_of_mem _ ?_
  rw [mem_contracted_nodes_edges] at he' ⊢
  rcases he' with he' | he'
  · exact Or.inl he'
  · exact Or.inr (contractedNewEdges_false_sub_true e' he')

/-- A merge of two distinct present nodes strictly shrinks the node list
(of a well-formed graph). -/
theorem merge_nodes_length_lt {G : Graph} (h : G.WF) {n1 n2 : String}
    (h1 : n1 ∈ G.nodes) (h2 : n2 ∈ G.nodes) (hne : n1 ≠ n2) :
    (merge_nodes G n1 n2 false).nodes.length < G.nodes.length := by
  unfold merge_nodes
  have hWFc : (contracted_nodes G n1 n2 false).WF := contracted_nodes_WF h n1 n2 false
  have hle : (relabel_node (contracted_nodes G n1 n2 false) n1
      (n1 ++ ",\n" ++ n2)).nodes.length ≤
      (contracted_nodes G n1 n2 false).nodes.length :=
    relabel_node_nodes_length_le hWFc.2.2
  have hnodes : (contracted_nodes G n1 n2 false).nodes = (removeNode G n2).nodes :=
    contracted_nodes_nodes h.2.2 h1 hne
  have hlt : (removeNode G n2).nodes.length < G.nodes.length := by
    unfold removeNode
    simp only
    refine List.length_filter_lt_length_iff_exists.mpr ?_
    exact ⟨n2, h2, by simp⟩
  have hlen := congrArg List.length hnodes
  omega

/-! ### The Kahn topological sort: soundness and completeness

`is_directed_acyclic_graph` is proved equivalent (on well-formed graphs) to
the mathematical acyclicity `Acyclic`. -/

theorem noIncoming_iff {es : List (String × String)} {n : String} :
    noIncoming es n = true ↔ ∀ e ∈ es, e.2 ≠ n := by
  unfold noIncoming
  rw [List.isEmpty_iff, List.filter_eq_nil_iff]
  simp

theorem mem_topoZero {ns : List String} {es : List (String × String)}
    {x : String} : x ∈ topoZero ns es ↔ x ∈ ns ∧ noIncoming es x = true := by
  unfold topoZero
  simp [List.mem_filter]

theorem mem_topoRest {ns : List String} {es : List (String × String)}
    {x : String} : x ∈ topoRest ns es ↔ x ∈ ns ∧ ¬ noIncoming es x = true := by
  unfold topoRest
  simp [List.mem_filter]

theorem mem_topoEdgesRest {ns : List String} {es : List (String × String)}
    {e : String × String} :
    e ∈ topoEdgesRest ns es ↔ e ∈ es ∧ e.1 ∉ topoZero ns es := by
  unfold topoEdgesRest
  simp [List.mem_filter]

theorem topo_length_split (ns : List String) (es : List (String × String)) :
    (topoZero ns es).length + (topoRest ns es).length = ns.length := by
  unfold topoZero topoRest
  have h := List.length_eq_length_filter_add (l := ns) (fun n => noIncoming es n)
  have hfun : (fun n => !noIncoming es n) =
      (fun n => decide (¬ noIncoming es n = true)) := by
    funext n
    rw [decide_not, Bool.decide_coe]
  rw [hfun] at h
  omega

theorem topoGenAux_length_le :
    ∀ (fuel : Nat) (ns : List String) (es : List (String × String)),
      (topoGenAux fuel ns es).length ≤ ns.length
  | 0, ns, es => by simp [topoGenAux]
  | fuel + 1, ns, es => by
    unfold topoGenAux
    split
    · simp
    · rw [List.length_append]
      have h1 := topoGenAux_length_le fuel (topoRest ns es) (topoEdgesRest ns es)
      have h2 := topo_length_split ns es
      omega

theorem topoGenAux_sub :
    ∀ (fuel : Nat) (ns : List String) (es : List (String × String)),
      ∀ x ∈ topoGenAux fuel ns es, x ∈ ns
  | 0, ns, es => by simp [topoGenAux]
  | fuel + 1, ns, es => by
    intro x hx
    unfold topoGenAux at hx
    split at hx
    · simp at hx
    · rcases List.mem_append.mp hx with hx | hx
      · exact (mem_topoZero.mp hx).1
      · exact (mem_topoRest.mp
          (topoGenAux_sub fuel (topoRest ns es) (topoEdgesRest ns es) x hx)).1

theorem topoGenAux_nodup :
    ∀ (fuel : Nat) (ns : List String) (es : List (String × String)),
      ns.Nodup → (topoGenAux fuel ns es).Nodup
  | 0, _, _ => by simp [topoGenAux]
  | fuel + 1, ns, es => by
    intro hnd
    unfold topoGenAux
    split
    · simp
    · refine List.Nodup.append (hnd.filter _)
        (topoGenAux_nodup fuel (topoRest ns es) (topoEdgesRest ns es)
          (hnd.filter _)) ?_
      intro x hx hx'
      have h1 := (mem_topoZero.mp hx).2
      have h2 := (mem_topoRest.mp
        (topoGenAux_sub fuel (topoRest ns es) (topoEdgesRest ns es) x hx')).2
      exact h2 h1

/-- Soundness of the Kahn sort: if it exhausts the nodes, no node of the
graph lies on a directed cycle. -/
theorem topoGenAux_sound :
    ∀ (fuel : Nat) (ns : List String) (es : List (String × String)),
      (topoGenAux fuel ns es).length = ns.length →
      ∀ a ∈ ns, ¬ Relation.TransGen (fun x y => (x, y) ∈ es) a a
  | 0, ns, es => by
    intro h a ha _
    simp only [topoGenAux, List.length_nil] at h
    rw [eq_comm, List.length_eq_zero] at h
    subst h
    simp at ha
  | fuel + 1, ns, es => by
    intro h a ha hcyc
    unfold topoGenAux at h
    by_cases hz : (topoZero ns es).isEmpty
    · rw [if_pos hz] at h
      simp only [List.length_nil] at h
      rw [eq_comm, List.length_eq_zero] at h
      subst h
      simp at ha
    · rw [if_neg hz, List.length_append] at h
      have hle := topoGenAux_length_le fuel (topoRest ns es) (topoEdgesRest ns es)
      have hsplit := topo_length_split ns es
      have hrec : (topoGenAux fuel (topoRest ns es) (topoEdgesRest ns es)).length
          = (topoRest ns es).length := by omega
      have IH := topoGenAux_sound fuel (topoRest ns es) (topoEdgesRest ns es) hrec
      have hpred : ∀ x, Relation.TransGen (fun x y => (x, y) ∈ es) a x →
          Relation.TransGen (fun x y => (x, y) ∈ es) x a →
          ∃ y, (Relation.TransGen (fun x y => (x, y) ∈ es) a y ∧
            Relation.TransGen (fun x y => (x, y) ∈ es) y a) ∧ (y, x) ∈ es := by
        intro x hax hxa
        obtain ⟨y, hay, hyx⟩ := Relation.TransGen.tail'_iff.mp hax
        refine ⟨y, ⟨?_, Relation.TransGen.head hyx hxa⟩, hyx⟩
        rcases Relation.reflTransGen_iff_eq_or_transGen.mp hay with rfl | hay'
        · exact hcyc
        · exact hay'
      have hnz : ∀ x, Relation.TransGen (fun x y => (x, y) ∈ es) a x →
          Relation.TransGen (fun x y => (x, y) ∈ es) x a →
          x ∉ topoZero ns es := by
        intro x hax hxa hmem
        obtain ⟨y, _, hyx⟩ := hpred x hax hxa
        exact (noIncoming_iff.mp (mem_topoZero.mp hmem).2) (y, x) hyx rfl
      have hlift : ∀ x, Relation.TransGen (fun x y => (x, y) ∈ es) a x →
          Relation.TransGen (fun x y => (x, y) ∈ es) x a →
          Relation.TransGen (fun x y => (x, y) ∈ topoEdgesRest ns es) a x := by
        intro x hax
        induction hax with
        | single hab =>
          intro hba
          refine Relation.TransGen.single (mem_topoEdgesRest.mpr ⟨hab, ?_⟩)
          exact hnz a hcyc hcyc
        | tail hab hbc ih =>
          intro hca
          have hba := Relation.TransGen.head hbc hca
          refine Relation.TransGen.tail (ih hba)
            (mem_topoEdgesRest.mpr ⟨hbc, ?_⟩)
          exact hnz _ hab hba
      have hmemR : a ∈ topoRest ns es := by
        refine mem_topoRest.mpr ⟨ha, fun hni => ?_⟩
        obtain ⟨y, _, hya⟩ := hpred a hcyc hcyc
        exact (noIncoming_iff.mp hni) (y, a) hya rfl
      exact IH a hmemR (hlift a hcyc hcyc)

/-- Completeness of the Kahn sort: on an edge-closed node list with no
directed cycle, it exhausts the nodes. -/
theorem topoGenAux_complete :
    ∀ (fuel : Nat) (ns : List String) (es : List (String × String)),
      ns.length ≤ fuel →
      (∀ e ∈ es, e.1 ∈ ns ∧ e.2 ∈ ns) →
      (∀ a ∈ ns, ¬ Relation.TransGen (fun x y => (x, y) ∈ es) a a) →
      (topoGenAux fuel ns es).length = ns.length
  | 0, ns, es => by
    intro hlen _ _
    rw [Nat.le_zero] at hlen
    rw [List.length_eq_zero] at hlen
    subst hlen
    simp [topoGenAux]
  | fuel + 1, ns, es => by
    intro hlen hcl hacyc
    by_cases hz : (topoZero ns es).isEmpty
    · have hnsnil : ns = [] := by
        by_contra hne
        obtain ⟨n0, hn0⟩ := List.exists_mem_of_ne_nil ns hne
        have hall : ∀ n ∈ ns, ∃ m ∈ ns, (m, n) ∈ es := by
          intro n hn
          have hni : ¬ noIncoming es n = true := by
            intro hni
            have hmem : n ∈ topoZero ns es := mem_topoZero.mpr ⟨hn, hni⟩
            rw [List.isEmpty_iff] at hz
            rw [hz] at hmem
            simp at hmem
          unfold noIncoming at hni
          rw [List.isEmpty_iff] at hni
          obtain ⟨e, he⟩ := List.exists_mem_of_ne_nil _ hni
          have he' := List.mem_filter.mp he
          obtain ⟨e1, e2⟩ := e
          have h2 : e2 = n := by simpa using he'.2
          subst h2
          exact ⟨e1, (hcl (e1, e2) he'.1).1, he'.1⟩
        have hchoice : ∀ x : {n // n ∈ ns}, ∃ y : {n // n ∈ ns},
            (y.val, x.val) ∈ es := by
          rintro ⟨n, hn⟩
          obtain ⟨m, hm, hedge⟩ := hall n hn
          exact ⟨⟨m, hm⟩, hedge⟩
        choose f hf using hchoice
        have hstep : ∀ k : Nat, ((f^[k + 1] ⟨n0, hn0⟩).val,
            (f^[k] ⟨n0, hn0⟩).val) ∈ es := by
          intro k
          rw [Function.iterate_succ_apply' f k]
          exact hf _
        have key : ∀ d k : Nat, Relation.TransGen (fun x y => (x, y) ∈ es)
            (f^[k + d + 1] ⟨n0, hn0⟩).val (f^[k] ⟨n0, hn0⟩).val := by
          intro d
          induction d with
          | zero => exact fun k => Relation.TransGen.single (hstep k)
          | succ d ih =>
            intro k
            have h1 : k + (d + 1) + 1 = (k + d + 1) + 1 := by omega
            rw [h1]
            exact Relation.TransGen.head (hstep (k + d + 1)) (ih k)
        have hmap : ∀ i ∈ Finset.range (ns.length + 1),
            (f^[i] ⟨n0, hn0⟩).val ∈ ns.toFinset := by
          intro i _
          exact List.mem_toFinset.mpr (f^[i] ⟨n0, hn0⟩).property
        have hcard : ns.toFinset.card < (Finset.range (ns.length + 1)).card := by
          rw [Finset.card_range]
          have := ns.toFinset_card_le
          omega
        obtain ⟨i, _, j, _, hij, heq⟩ :=
          Finset.exists_ne_map_eq_of_card_lt_of_maps_to hcard hmap
        rcases Nat.lt_or_ge i j with hlt | hge
        · have h1 : j = i + (j - i - 1) + 1 := by omega
          have hc := key (j - i - 1) i
          rw [← h1, heq] at hc
          exact hacyc _ (f^[j] ⟨n0, hn0⟩).property hc
        · have hlt : j < i := by omega
          have h1 : i = j + (i - j - 1) + 1 := by omega
          have hc := key (i - j - 1) j
          rw [← h1, ← heq] at hc
          exact hacyc _ (f^[i] ⟨n0, hn0⟩).property hc
      subst hnsnil
      simp [topoGenAux, hz]
    · have hzlen : 0 < (topoZero ns es).length := by
        rw [List.isEmpty_iff] at hz
        exact List.length_pos.mpr hz
      have hsplit := topo_length_split ns es
      have hrec := topoGenAux_complete fuel (topoRest ns es) (topoEdgesRest ns es)
        (by omega)
        (by
          intro e he
          have he' := mem_topoEdgesRest.mp he
          have hcle := hcl e he'.1
          constructor
          · refine mem_topoRest.mpr ⟨hcle.1, fun hni => ?_⟩
            exact he'.2 (mem_topoZero.mpr ⟨hcle.1, hni⟩)
          · refine mem_topoRest.mpr ⟨hcle.2, fun hni => ?_⟩
            exact (noIncoming_iff.mp hni) e he'.1 rfl)
        (by
          intro a ha hc
          refine hacyc a (mem_topoRest.mp ha).1 ?_
          exact hc.mono (fun x y hxy => (mem_topoEdgesRest.mp hxy).1))
      unfold topoGenAux
      rw [if_neg hz, List.length_append, hrec]
      exact hsplit

/-- On a well-formed graph, the executable acyclicity test agrees with
mathematical acyclicity. -/
theorem isdag_iff_acyclic {G : Graph} (h : G.WF) :
    is_directed_acyclic_graph G = true ↔ Acyclic G := by
  unfold is_directed_acyclic_graph topological_sort
  rw [decide_eq_true_eq]
  constructor
  · intro hlen a hcyc
    have hmem : a ∈ G.nodes := by
      obtain ⟨b, hab, _⟩ := Relation.TransGen.head'_iff.mp hcyc
      exact (h.2.2 (a, b) hab).1
    exact topoGenAux_sound G.nodes.length G.nodes G.edges hlen a hmem hcyc
  · intro hacyc
    exact topoGenAux_complete G.nodes.length G.nodes G.edges le_rfl h.2.2
      (fun a _ hc => hacyc a hc)

/-- Every node of a well-formed acyclic graph appears in its topological
sort. -/
theorem mem_topological_sort {G : Graph} (h : G.WF) (hacyc : Acyclic G) :
    ∀ x ∈ G.nodes, x ∈ topological_sort G := by
  intro x hx
  have hnd : (topological_sort G).Nodup :=
    topoGenAux_nodup G.nodes.length G.nodes G.edges h.1
  have hsub : ∀ y ∈ topological_sort G, y ∈ G.nodes :=
    topoGenAux_sub G.nodes.length G.nodes G.edges
  have hlen : (topological_sort G).length = G.nodes.length :=
    decide_eq_true_eq.mp ((isdag_iff_acyclic h).mpr hacyc)
  have heq : (topological_sort G).toFinset = G.nodes.toFinset := by
    refine Finset.eq_of_subset_of_card_le ?_ ?_
    · intro y hy
      exact List.mem_toFinset.mpr (hsub y (List.mem_toFinset.mp hy))
    · rw [List.toFinset_card_of_nodup hnd, hlen]
      exact List.toFinset_card_le G.nodes
  have hx' : x ∈ (topological_sort G).toFinset := by
    rw [heq]
    exact List.mem_toFinset.mpr hx
  exact List.mem_toFinset.mp hx'

theorem topological_sort_sub {G : Graph} :
    ∀ x ∈ topological_sort G, x ∈ G.nodes :=
  topoGenAux_sub G.nodes.length G.nodes G.edges

/-- Acyclicity transfers down to any graph with fewer edges. -/
theorem acyclic_of_edges_sub {G G' : Graph}
    (hsub : ∀ e ∈ G.edges, e ∈ G'.edges) (h : Acyclic G') : Acyclic G := by
  intro a hc
  refine h a (hc.mono ?_)
  intro x y hxy
  exact hsub (x, y) hxy

/-! ### Valid pairs keep the graph acyclic -/

/-- The heart of the acyclicity invariant: when the validity probe (which
merges with `self_loops = true`) succeeds, the actual merge (with
`self_loops = false`, an edge subset of the probe) is acyclic — whatever the
input graph was. -/
theorem a_valid_pair_acyclic {U V : String} {H : Graph} {t : Option Table}
    {th : ℚ} (h : a_valid_pair U V H t th = true) :
    Acyclic (merge_nodes H U V false) := by
  unfold a_valid_pair at h
  rw [Bool.and_eq_true] at h
  exact acyclic_of_edges_sub merge_nodes_false_edges_sub_true
    ((isdag_iff_acyclic (merge_nodes_WF H U V true)).mp h.2)

theorem combinations_mem :
    ∀ {l : List String} {p : String × String}, p ∈ combinations l →
      p.1 ∈ l ∧ p.2 ∈ l := by
  intro l
  induction l with
  | nil => simp [combinations]
  | cons x xs ih =>
    intro p hp
    rcases List.mem_append.mp hp with hp | hp
    · rcases List.mem_map.mp hp with ⟨y, hy, rfl⟩
      exact ⟨List.mem_cons_self _ _, List.mem_cons_of_mem _ hy⟩
    · exact ⟨List.mem_cons_of_mem _ (ih hp).1, List.mem_cons_of_mem _ (ih hp).2⟩

theorem combinations_ne :
    ∀ {l : List String}, l.Nodup → ∀ {p : String × String},
      p ∈ combinations l → p.1 ≠ p.2 := by
  intro l
  induction l with
  | nil => simp [combinations]
  | cons x xs ih =>
    intro hnd p hp
    obtain ⟨hx, hxs⟩ := List.nodup_cons.mp hnd
    rcases List.mem_append.mp hp with hp | hp
    · rcases List.mem_map.mp hp with ⟨y, hy, rfl⟩
      intro he
      simp only at he
      exact hx (he ▸ hy)
    · exact ih hxs hp

/-! ### The pre-reduction pass -/

theorem findLowCostPair_spec {G : Graph} {t : Option Table} {th : ℚ}
    {p : String × String} (h : findLowCostPair G t th = some p) :
    a_valid_pair p.1 p.2 G t th = true ∧ get_cost p.1 p.2 G ≤ 1 ∧
      p.1 ∈ G.nodes ∧ p.2 ∈ G.nodes ∧ p ∈ combinations G.nodes := by
  unfold findLowCostPair at h
  have h1 := List.find?_some h
  rw [Bool.and_eq_true] at h1
  have h2 := List.mem_of_find?_eq_some h
  exact ⟨h1.1, of_decide_eq_true h1.2, (combinations_mem h2).1,
    (combinations_mem h2).2, h2⟩

/-- After the pre-reduction loop runs out of pairs (the fuel `nodes.length`
always suffices), no valid pair of cost `≤ 1` remains, and the result is
well-formed. -/
theorem low_cost_aux_fix (t : Option Table) (th : ℚ) :
    ∀ (fuel : Nat) (G : Graph), G.nodes.length ≤ fuel → G.WF →
      (low_cost_aux t th fuel G).WF ∧
        findLowCostPair (low_cost_aux t th fuel G) t th = none
  | 0, G => by
    intro hlen hWF
    rw [Nat.le_zero, List.length_eq_zero] at hlen
    refine ⟨hWF, ?_⟩
    show findLowCostPair G t th = none
    unfold findLowCostPair
    rw [hlen]
    rfl
  | fuel + 1, G => by
    intro hlen hWF
    cases hfind : findLowCostPair G t th with
    | none =>
      have heq : low_cost_aux t th (fuel + 1) G = G := by
        unfold low_cost_aux
        rw [hfind]
      rw [heq]
      exact ⟨hWF, hfind⟩
    | some p =>
      have heq : low_cost_aux t th (fuel + 1) G =
          low_cost_aux t th fuel (merge_nodes G p.1 p.2 false) := by
        conv_lhs => unfold low_cost_aux
        rw [hfind]
      have hspec := findLowCostPair_spec hfind
      have hne : p.1 ≠ p.2 := combinations_ne hWF.1 hspec.2.2.2.2
      have hlt := merge_nodes_length_lt hWF hspec.2.2.1 hspec.2.2.2.1 hne
      rw [heq]
      exact low_cost_aux_fix t th fuel (merge_nodes G p.1 p.2 false)
        (by omega) (merge_nodes_WF G p.1 p.2 false)

/-- The pre-reduction loop preserves acyclicity: every merge it performs
passed the validity probe. -/
theorem low_cost_aux_acyclic (t : Option Table) (th : ℚ) :
    ∀ (fuel : Nat) (G : Graph), Acyclic G → Acyclic (low_cost_aux t th fuel G)
  | 0, _ => fun h => h
  | fuel + 1, G => by
    intro hA
    cases hfind : findLowCostPair G t th with
    | none =>
      have heq : low_cost_aux t th (fuel + 1) G = G := by
        unfold low_cost_aux
        rw [hfind]
      rw [heq]
      exact hA
    | some p =>
      have heq : low_cost_aux t th (fuel + 1) G =
          low_cost_aux t th fuel (merge_nodes G p.1 p.2 false) := by
        conv_lhs => unfold low_cost_aux
        rw [hfind]
      rw [heq]
      exact low_cost_aux_acyclic t th fuel _
        (a_valid_pair_acyclic (findLowCostPair_spec hfind).1)

theorem low_cost_merges_WF {G : Graph} (t : Option Table) (th : ℚ)
    (hWF : G.WF) : (low_cost_merges G t th).WF :=
  (low_cost_aux_fix t th G.nodes.length G le_rfl hWF).1

theorem low_cost_merges_fix {G : Graph} (t : Option Table) (th : ℚ)
    (hWF : G.WF) : findLowCostPair (low_cost_merges G t th) t th = none :=
  (low_cost_aux_fix t th G.nodes.length G le_rfl hWF).2

theorem low_cost_merges_acyclic {G : Graph} (t : Option Table) (th : ℚ)
    (hA : Acyclic G) : Acyclic (low_cost_merges G t th) :=
  low_cost_aux_acyclic t th G.nodes.length G hA

/-! ### The greedy loop -/

/-! Reduction equations for `scanPairs`, one per branch of the loop body. -/

theorem scanPairs_cons_invalid {H : Graph} {t : Option Table}
    {coins : Nat → Bool} {U V : String} {rest : List (String × String)}
    {mc : Option Nat} {best : Option (String × String)} {ci : Nat}
    (hv : ¬ a_valid_pair U V H t 0 = true) :
    scanPairs H t coins ((U, V) :: rest) mc best ci =
      scanPairs H t coins rest mc best ci := by
  cases mc <;> (simp only [scanPairs]; rw [if_neg hv])

theorem scanPairs_cons_first {H : Graph} {t : Option Table}
    {coins : Nat → Bool} {U V : String} {rest : List (String × String)}
    {best : Option (String × String)} {ci : Nat}
    (hv : a_valid_pair U V H t 0 = true) :
    scanPairs H t coins ((U, V) :: rest) none best ci =
      scanPairs H t coins rest (some (get_cost U V H)) (some (U, V)) ci := by
  simp only [scanPairs]
  rw [if_pos hv]

theorem scanPairs_cons_lt {H : Graph} {t : Option Table}
    {coins : Nat → Bool} {U V : String} {rest : List (String × String)}
    {m : Nat} {best : Option (String × String)} {ci : Nat}
    (hv : a_valid_pair U V H t 0 = true) (h1 : get_cost U V H < m) :
    scanPairs H t coins ((U, V) :: rest) (some m) best ci =
      scanPairs H t coins rest (some (get_cost U V H)) (some (U, V)) ci := by
  simp only [scanPairs]
  rw [if_pos hv, if_pos h1]

theorem scanPairs_cons_tie_heads {H : Graph} {t : Option Table}
    {coins : Nat → Bool} {U V : String} {rest : List (String × String)}
    {m : Nat} {best : Option (String × String)} {ci : Nat}
    (hv : a_valid_pair U V H t 0 = true) (h1 : ¬ get_cost U V H < m)
    (h2 : isclose (get_cost U V H) m = true) (h3 : coins ci = true) :
    scanPairs H t coins ((U, V) :: rest) (some m) best ci =
      scanPairs H t coins rest (some m) (some (U, V)) (ci + 1) := by
  simp only [scanPairs]
  rw [if_pos hv, if_neg h1, if_pos h2, if_pos h3]

theorem scanPairs_cons_tie_tails {H : Graph} {t : Option Table}
    {coins : Nat → Bool} {U V : String} {rest : List (String × String)}
    {m : Nat} {best : Option (String × String)} {ci : Nat}
    (hv : a_valid_pair U V H t 0 = true) (h1 : ¬ get_cost U V H < m)
    (h2 : isclose (get_cost U V H) m = true) (h3 : ¬ coins ci = true) :
    scanPairs H t coins ((U, V) :: rest) (some m) best ci =
      scanPairs H t coins rest (some m) best (ci + 1) := by
  simp only [scanPairs]
  rw [if_pos hv, if_neg h1, if_pos h2, if_neg h3]

theorem scanPairs_cons_far {H : Graph} {t : Option Table}
    {coins : Nat → Bool} {U V : String} {rest : List (String × String)}
    {m : Nat} {best : Option (String × String)} {ci : Nat}
    (hv : a_valid_pair U V H t 0 = true) (h1 : ¬ get_cost U V H < m)
    (h2 : ¬ isclose (get_cost U V H) m = true) :
    scanPairs H t coins ((U, V) :: rest) (some m) best ci =
      scanPairs H t coins rest (some m) best ci := by
  simp only [scanPairs]
  rw [if_pos hv, if_neg h1, if_neg h2]

/-- The pair `scanPairs` selects is either the initial candidate or a valid
pair from the scanned list. -/
theorem scanPairs_result (H : Graph) (t : Option Table) (coins : Nat → Bool) :
    ∀ (l : List (String × String)) (mc : Option Nat)
      (best : Option (String × String)) (ci : Nat),
      (scanPairs H t coins l mc best ci).1 = best ∨
        ∃ p ∈ l, (scanPairs H t coins l mc best ci).1 = some p ∧
          a_valid_pair p.1 p.2 H t 0 = true
  | [], _, _, _ => Or.inl rfl
  | (U, V) :: rest, mc, best, ci => by
    have step : ∀ (mc' : Option Nat) (best' : Option (String × String))
        (ci' : Nat), a_valid_pair U V H t 0 = true →
        (best' = best ∨ best' = some (U, V)) →
        (scanPairs H t coins rest mc' best' ci').1 = best ∨
          ∃ p ∈ (U, V) :: rest,
            (scanPairs H t coins rest mc' best' ci').1 = some p ∧
              a_valid_pair p.1 p.2 H t 0 = true := by
      intro mc' best' ci' hv hb
      rcases scanPairs_result H t coins rest mc' best' ci' with h | h
      · rcases hb with rfl | rfl
        · exact Or.inl h
        · exact Or.inr ⟨(U, V), List.mem_cons_self _ _, h, hv⟩
      · obtain ⟨p, hp, h⟩ := h
        exact Or.inr ⟨p, List.mem_cons_of_mem _ hp, h⟩
    have tail : (scanPairs H t coins rest mc best ci).1 = best ∨
        ∃ p ∈ (U, V) :: rest,
          (scanPairs H t coins rest mc best ci).1 = some p ∧
            a_valid_pair p.1 p.2 H t 0 = true := by
      rcases scanPairs_result H t coins rest mc best ci with h | h
      · exact Or.inl h
      · obtain ⟨p, hp, h⟩ := h
        exact Or.inr ⟨p, List.mem_cons_of_mem _ hp, h⟩
    by_cases hv : a_valid_pair U V H t 0 = true
    · cases mc with
      | none =>
        rw [scanPairs_cons_first hv]
        exact step _ _ _ hv (Or.inr rfl)
      | some m =>
        by_cases h1 : get_cost U V H < m
        · rw [scanPairs_cons_lt hv h1]
          exact step _ _ _ hv (Or.inr rfl)
        · by_cases h2 : isclose (get_cost U V H) m = true
          · by_cases h3 : coins ci = true
            · rw [scanPairs_cons_tie_heads hv h1 h2 h3]
              exact step _ _ _ hv (Or.inr rfl)
            · rw [scanPairs_cons_tie_tails hv h1 h2 h3]
              exact step _ _ _ hv (Or.inl rfl)
          · rw [scanPairs_cons_far hv h1 h2]
            exact step _ _ _ hv (Or.inl rfl)
    · rw [scanPairs_cons_invalid hv]
      exact tail

/-- When the greedy scan starts with no candidate and returns one, that pair
is valid and comes from the scanned list. -/
theorem scanPairs_some {H : Graph} {t : Option Table} {coins : Nat → Bool}
    {l : List (String × String)} {ci : Nat} {p : String × String} {ci' : Nat}
    (h : scanPairs H t coins l none none ci = (some p, ci')) :
    p ∈ l ∧ a_valid_pair p.1 p.2 H t 0 = true := by
  rcases scanPairs_result H t coins l none none ci with h' | h'
  · rw [h] at h'
    simp at h'
  · obtain ⟨q, hq, hq', hqv⟩ := h'
    rw [h] at hq'
    simp only [Option.some.injEq] at hq'
    subst hq'
    exact ⟨hq, hqv⟩

/-- The result of the greedy loop is one of its trace states. -/
theorem cagres_loop_mem_trace (k : Nat) (t : Option Table) (coins : Nat → Bool) :
    ∀ (fuel : Nat) (H : Graph) (ci : Nat),
      cagres_loop k t coins fuel H ci ∈ cagres_loop_trace k t coins fuel H ci
  | 0, H, ci => List.mem_singleton.mpr rfl
  | fuel + 1, H, ci => by
    by_cases hk : H.nodes.length ≤ k
    · have h1 : cagres_loop k t coins (fuel + 1) H ci = H := by
        unfold cagres_loop
        rw [if_pos hk]
      have h2 : cagres_loop_trace k t coins (fuel + 1) H ci = [H] := by
        unfold cagres_loop_trace
        rw [if_pos hk]
      rw [h1, h2]
      exact List.mem_singleton.mpr rfl
    · cases hscan : scanPairs H t coins (combinations H.nodes) none none ci with
      | mk sel ci' =>
        cases sel with
        | none =>
          have h1 : cagres_loop k t coins (fuel + 1) H ci = H := by
            unfold cagres_loop
            rw [if_neg hk, hscan]
          have h2 : cagres_loop_trace k t coins (fuel + 1) H ci = [H] := by
            unfold cagres_loop_trace
            rw [if_neg hk, hscan]
          rw [h1, h2]
          exact List.mem_singleton.mpr rfl
        | some p =>
          have h1 : cagres_loop k t coins (fuel + 1) H ci =
              cagres_loop k t coins fuel (merge_nodes H p.1 p.2 false) ci' := by
            conv_lhs => unfold cagres_loop
            rw [if_neg hk, hscan]
          have h2 : cagres_loop_trace k t coins (fuel + 1) H ci =
              H :: cagres_loop_trace k t coins fuel
                (merge_nodes H p.1 p.2 false) ci' := by
            conv_lhs => unfold cagres_loop_trace
            rw [if_neg hk, hscan]
          rw [h1, h2]
          exact List.mem_cons_of_mem _
            (cagres_loop_mem_trace k t coins fuel (merge_nodes H p.1 p.2 false) ci')

/-- Every state in the greedy loop's trace is acyclic, provided the starting
state is: each merge performed passed the validity probe. -/
theorem cagres_loop_trace_acyclic (k : Nat) (t : Option Table)
    (coins : Nat → Bool) :
    ∀ (fuel : Nat) (H : Graph) (ci : Nat), Acyclic H →
      ∀ G ∈ cagres_loop_trace k t coins fuel H ci, Acyclic G
  | 0, H, ci => by
    intro hA G hG
    have hGH : G = H := by simpa [cagres_loop_trace] using hG
    rw [hGH]
    exact hA
  | fuel + 1, H, ci => by
    intro hA G hG
    by_cases hk : H.nodes.length ≤ k
    · have heq : cagres_loop_trace k t coins (fuel + 1) H ci = [H] := by
        unfold cagres_loop_trace
        rw [if_pos hk]
      rw [heq] at hG
      rw [List.mem_singleton.mp hG]
      exact hA
    · cases hscan : scanPairs H t coins (combinations H.nodes) none none ci with
      | mk sel ci' =>
        cases sel with
        | none =>
          have heq : cagres_loop_trace k t coins (fuel + 1) H ci = [H] := by
            unfold cagres_loop_trace
            rw [if_neg hk, hscan]
          rw [heq] at hG
          rw [List.mem_singleton.mp hG]
          exact hA
        | some p =>
          have heq : cagres_loop_trace k t coins (fuel + 1) H ci =
              H :: cagres_loop_trace k t coins fuel
                (merge_nodes H p.1 p.2 false) ci' := by
            conv_lhs => unfold cagres_loop_trace
            rw [if_neg hk, hscan]
          rw [heq] at hG
          rcases List.mem_cons.mp hG with rfl | hG
          · exact hA
          · have hv := (scanPairs_some hscan).2
            exact cagres_loop_trace_acyclic k t coins fuel _ ci'
              (a_valid_pair_acyclic hv) G hG

theorem low_cost_merges_of_fix {G : Graph} {t : Option Table} {th : ℚ}
    (hfix : findLowCostPair G t th = none) : low_cost_merges G t th = G := by
  unfold low_cost_merges
  cases hlen : G.nodes.length with
  | zero => rfl
  | succ m =>
    conv_lhs => unfold low_cost_aux
    rw [hfix]

theorem cagres_states_eq (dag : Graph) (k : Nat) (t : Option Table)
    (coins : Nat → Bool) :
    cagres_states dag k t coins = cagres_loop_trace k t coins
      ((low_cost_merges dag t 0).nodes.length + 1) (low_cost_merges dag t 0) 0 :=
  rfl

theorem CaGreS_eq (dag : Graph) (k : Nat) (t : Option Table) (th : ℚ)
    (coins : Nat → Bool) :
    CaGreS dag k t th coins = cagres_loop k t coins
      ((low_cost_merges dag t 0).nodes.length + 1) (low_cost_merges dag t 0) 0 :=
  rfl

/-! ## The claims -/

/-- Claim C9: the pre-reduction pass is idempotent — applying
`low_cost_merges` to its own output returns that output unchanged, for every
(well-formed) graph, similarity table and threshold.  (When the pass
terminates no valid pair of cost `≤ 1` remains, so a second run finds
nothing to merge.) -/
theorem low_cost_merges_idempotent (G : Graph) (t : Option Table) (th : ℚ)
    (hWF : G.WF) :
    low_cost_merges (low_cost_merges G t th) t th = low_cost_merges G t th :=
  low_cost_merges_of_fix (low_cost_merges_fix t th hWF)

/-- Witness for C9, at three isolated nodes. -/
theorem low_cost_merges_idempotent_witness :
    iso3.WF ∧ low_cost_merges (low_cost_merges iso3 none 0) none 0 =
      low_cost_merges iso3 none 0 :=
  ⟨by decide, low_cost_merges_idempotent iso3 none 0 (by decide)⟩

/-- Claim C3: starting from a well-formed acyclic graph, every intermediate
graph of `CaGreS` — the output of the pre-reduction pass (the head of
`cagres_states`), the state after each greedy merge, and the final result —
is acyclic; and the value `CaGreS` returns is among those states. -/
theorem cagres_acyclicity_invariant (dag : Graph) (k : Nat) (t : Option Table)
    (th : ℚ) (coins : Nat → Bool) (hWF : dag.WF) (hA : Acyclic dag) :
    (∀ G ∈ cagres_states dag k t coins, Acyclic G) ∧
      CaGreS dag k t th coins ∈ cagres_states dag k t coins := by
  constructor
  · rw [cagres_states_eq]
    exact cagres_loop_trace_acyclic k t coins _ _ 0
      (low_cost_merges_acyclic t 0 hA)
  · rw [cagres_states_eq, CaGreS_eq]
    exact cagres_loop_mem_trace k t coins _ _ 0

/-- Witness for C3, on the 4-node chain with `k = 2`. -/
theorem cagres_acyclicity_invariant_witness :
    chain4.WF ∧ Acyclic chain4 ∧
      ((∀ G ∈ cagres_states chain4 2 none (fun _ => false), Acyclic G) ∧
        CaGreS chain4 2 none 0 (fun _ => false) ∈
          cagres_states chain4 2 none (fun _ => false)) :=
  ⟨by decide, (isdag_iff_acyclic (by decide)).mp (by decide),
    cagres_acyclicity_invariant chain4 2 none 0 (fun _ => false) (by decide)
      ((isdag_iff_acyclic (by decide)).mp (by decide))⟩

/-- Claim C4: two distinct nodes joined by a direct edge (in either
direction) are never a valid pair: the probe contracts them with
`self_loops=True`, the direct edge survives as a self-loop on the merged
node, and a graph with a self-loop has no topological sort, so the
acyclicity gate rejects the pair. -/
theorem direct_edge_never_valid (U V : String) (H : Graph) (t : Option Table)
    (th : ℚ) (hWF : H.WF) (hne : U ≠ V)
    (hedge : (U, V) ∈ H.edges ∨ (V, U) ∈ H.edges) :
    a_valid_pair U V H t th = false := by
  have hUU : (U, U) ∈ (contracted_nodes H U V true).edges := by
    rw [mem_contracted_nodes_edges]
    refine Or.inr (List.mem_append.mpr ?_)
    rcases hedge with hedge | hedge
    · refine Or.inl ?_
      have hmem : (U, V) ∈ H.edges.filter
          (fun e => decide (e.2 = V ∧ (true = true ∨ e.1 ≠ U))) := by
        rw [List.mem_filter]
        exact ⟨hedge, by simp⟩
      have := List.mem_map_of_mem
        (fun e : String × String => ((if e.1 ≠ V then e.1 else U), U)) hmem
      simpa [hne] using this
    · refine Or.inr ?_
      have hmem : (V, U) ∈ H.edges.filter
          (fun e => decide (e.1 = V ∧ (true = true ∨ e.2 ≠ U))) := by
        rw [List.mem_filter]
        exact ⟨hedge, by simp⟩
      have := List.mem_map_of_mem
        (fun e : String × String => (U, (if e.2 ≠ V then e.2 else U))) hmem
      simpa [hne] using this
  have hLL : (U ++ ",\n" ++ V, U ++ ",\n" ++ V) ∈ (merge_nodes H U V true).edges := by
    unfold merge_nodes
    rw [mem_relabel_node_edges]
    have := List.mem_map_of_mem
      (fun e : String × String =>
        (rename U (U ++ ",\n" ++ V) e.1, rename U (U ++ ",\n" ++ V) e.2)) hUU
    simpa [rename] using this
  have hnA : ¬ Acyclic (merge_nodes H U V true) := by
    intro hacyc
    exact hacyc _ (Relation.TransGen.single hLL)
  have hdag : is_directed_acyclic_graph (merge_nodes H U V true) = false := by
    cases hd : is_directed_acyclic_graph (merge_nodes H U V true) with
    | false => rfl
    | true =>
      exact absurd ((isdag_iff_acyclic (merge_nodes_WF H U V true)).mp hd) hnA
  unfold a_valid_pair
  rw [hdag, Bool.and_false]

/-- Witness for C4: the adjacent pair `(A, B)` of the chain. -/
theorem direct_edge_never_valid_witness :
    chain4.WF ∧ ("A" : String) ≠ "B" ∧
      (("A", "B") ∈ chain4.edges ∨ ("B", "A") ∈ chain4.edges) ∧
      a_valid_pair "A" "B" chain4 none 0 = false :=
  ⟨by decide, by decide, Or.inl (by decide),
    direct_edge_never_valid "A" "B" chain4 none 0 (by decide) (by decide)
      (Or.inl (by decide))⟩

/-- Claim C5 (the code violates it): on the chain `A→B→C→D` with `k = 2`
the spec expects two cluster nodes covering `{A, B, C, D}`; the code instead
returns the 4-node chain unchanged — no pair is ever valid (adjacent pairs
leave a self-loop in the probe, non-adjacent merges close a cycle), so the
greedy loop stalls immediately, contradicting the function's own contract of
returning a summary DAG with `k` (or fewer) nodes.  Whatever the random
tie-break stream is, no coin is ever consulted. -/
theorem cagres_chain4_returns_input_unchanged :
    (∀ coins : Nat → Bool, CaGreS chain4 2 none 0 coins = chain4) ∧
      chain4.nodes.length = 4 := by
  exact ⟨fun _ => rfl, rfl⟩

/-- Counterexample to claim C6 as stated: on three isolated nodes the first
merge `CaGreS` performs (selected by the pre-reduction pass) is `(A, B)`,
whose cost is `1`, not `0` — since there is no direct edge `A→B`, the base
cost `sizeA * sizeB = 1` applies. -/
theorem iso3_first_merge_cost_one :
    findLowCostPair iso3 none 0 = some ("A", "B") ∧
      get_cost "A" "B" iso3 = 1 := ⟨rfl, rfl⟩

/-- Claim C6 as amended: `CaGreS` on three isolated nodes with `k = 1` does
merge all three nodes into the single cluster `A,\nB,\nC` (for every
tie-break stream), but the two merges performed — `(A, B)` in the
pre-reduction pass, then the cluster with `C` in the greedy loop — have
costs `1` and `2` respectively, not `0`. -/
theorem cagres_iso3_single_cluster (coins : Nat → Bool) :
    CaGreS iso3 1 none 0 coins = { nodes := ["A,\nB,\nC"], edges := [] } ∧
      low_cost_merges iso3 none 0 = { nodes := ["A,\nB", "C"], edges := [] } ∧
      findLowCostPair iso3 none 0 = some ("A", "B") ∧
      get_cost "A" "B" iso3 = 1 ∧
      get_cost "A,\nB" "C" (low_cost_merges iso3 none 0) = 2 := by
  exact ⟨rfl, rfl, rfl, rfl, rfl⟩

/-- Witness for C6 (amended) at a concrete coin stream. -/
theorem cagres_iso3_single_cluster_witness :
    CaGreS iso3 1 none 0 (fun _ => false) =
        { nodes := ["A,\nB,\nC"], edges := [] } ∧
      low_cost_merges iso3 none 0 = { nodes := ["A,\nB", "C"], edges := [] } ∧
      findLowCostPair iso3 none 0 = some ("A", "B") ∧
      get_cost "A" "B" iso3 = 1 ∧
      get_cost "A,\nB" "C" (low_cost_merges iso3 none 0) = 2 :=
  cagres_iso3_single_cluster (fun _ => false)

/-- Counterexample to claim C7 as stated: on two isolated nodes with
`k = 2` (the node count), `CaGreS` does not return the input — the
pre-reduction pass runs before the `len(H.nodes) > k` test and merges
`(A, B)` at cost `1`, so the result is the single cluster `A,\nB`. -/
theorem cagres_k_eq_n_still_merges :
    CaGreS iso2 2 none 0 (fun _ => false) =
        { nodes := ["A,\nB"], edges := [] } ∧
      CaGreS iso2 2 none 0 (fun _ => false) ≠ iso2 := by
  exact ⟨rfl, by decide⟩

/-- Claim C7 as amended: if the pre-reduction pass finds nothing to do — no
pair of nodes is both valid and of cost `≤ 1` — then `CaGreS` with `k` equal
to the input's node count performs zero merges and returns the input graph
unchanged (node list and edge list equal). -/
theorem cagres_k_eq_n_identity (G : Graph) (t : Option Table) (th : ℚ)
    (coins : Nat → Bool) (hA : Acyclic G)
    (hno : ∀ p ∈ combinations G.nodes,
      ¬ (a_valid_pair p.1 p.2 G t 0 = true ∧ get_cost p.1 p.2 G ≤ 1)) :
    CaGreS G G.nodes.length t th coins = G := by
  have hfind : findLowCostPair G t 0 = none := by
    unfold findLowCostPair
    rw [List.find?_eq_none]
    intro p hp hcond
    rw [Bool.and_eq_true] at hcond
    exact hno p hp ⟨hcond.1, of_decide_eq_true hcond.2⟩
  have hlc := low_cost_merges_of_fix hfind
  rw [CaGreS_eq, hlc]
  conv_lhs => unfold cagres_loop
  rw [if_pos le_rfl]

/-- Witness for C7 (amended): the 4-node chain, on which no pair at all is
valid. -/
theorem cagres_k_eq_n_identity_witness :
    Acyclic chain4 ∧
      (∀ p ∈ combinations chain4.nodes,
        ¬ (a_valid_pair p.1 p.2 chain4 none 0 = true ∧
          get_cost p.1 p.2 chain4 ≤ 1)) ∧
      CaGreS chain4 chain4.nodes.length none 0 (fun _ => false) = chain4 :=
  ⟨(isdag_iff_acyclic (by decide)).mp (by decide), by decide,
    cagres_k_eq_n_identity chain4 none 0 (fun _ => false)
      ((isdag_iff_acyclic (by decide)).mp (by decide)) (by decide)⟩

/-- Claim C8 (the code violates it): `CaGreS` ignores its
`semantic_threshold` argument.  The pre-reduction pass is invoked without it
(falling back to the default `0.0`) and the greedy loop passes the literal
`semantic_threshold=0.0`, so with a table rating every pair `1/2` and
threshold `9/10` the pair `(A, B)` is invalid according to `a_valid_pair`,
yet `CaGreS` merges it anyway, and its output at threshold `9/10` is
identical to its output at threshold `0`. -/
theorem cagres_ignores_threshold :
    a_valid_pair "A" "B" iso2 (some halfTable) (mkRat 9 10) = false ∧
      CaGreS iso2 1 (some halfTable) (mkRat 9 10) (fun _ => false) =
        { nodes := ["A,\nB"], edges := [] } ∧
      CaGreS iso2 1 (some halfTable) (mkRat 9 10) (fun _ => false) =
        CaGreS iso2 1 (some halfTable) 0 (fun _ => false) := by
  refine ⟨by decide, by decide, by decide⟩

/-! ### The cost formula (claim C1) -/

theorem predecessors_nodup {G : Graph} (h : G.edges.Nodup) (u : String) :
    (predecessors G u).Nodup := by
  unfold predecessors
  refine List.Nodup.map_on ?_ (h.filter _)
  intro x hx y hy hxy
  have hx2 : x.2 = u := of_decide_eq_true (List.mem_filter.mp hx).2
  have hy2 : y.2 = u := of_decide_eq_true (List.mem_filter.mp hy).2
  exact Prod.ext hxy (hx2.trans hy2.symm)

theorem successors_nodup {G : Graph} (h : G.edges.Nodup) (u : String) :
    (successors G u).Nodup := by
  unfold successors
  refine List.Nodup.map_on ?_ (h.filter _)
  intro x hx y hy hxy
  have hx1 : x.1 = u := of_decide_eq_true (List.mem_filter.mp hx).2
  have hy1 : y.1 = u := of_decide_eq_true (List.mem_filter.mp hy).2
  exact Prod.ext (hx1.trans hy1.symm) hxy

theorem length_filter_not_mem_eq_card_sdiff {l1 l2 : List String}
    (h : l1.Nodup) :
    (l1.filter (fun x => x ∉ l2)).length = (l1.toFinset \ l2.toFinset).card := by
  rw [← List.toFinset_card_of_nodup (h.filter _)]
  congr 1
  ext x
  simp only [List.mem_toFinset, List.mem_filter, Finset.mem_sdiff,
    decide_eq_true_eq]

/-- Claim C1: for every well-formed graph `H` and labels `U`, `V`,
`get_cost U V H` equals the specified sum — the base cost
`sizeU * sizeV` when the direct edge `U→V` is absent, plus
`|parentsU \ parentsV| * sizeV + |parentsV \ parentsU| * sizeU` over the
direct-predecessor sets and the symmetric terms over the direct-successor
sets, where the sizes count the atomic members obtained by splitting the
labels on the delimiter.  The result lives in `ℕ`, hence is a non-negative
integer. -/
theorem get_cost_formula (U V : String) (H : Graph) (hWF : H.WF) :
    get_cost U V H =
      (if (U, V) ∈ H.edges then 0
        else (splitLabel U).length * (splitLabel V).length)
      + ((predecessors H U).toFinset \ (predecessors H V).toFinset).card *
          (splitLabel V).length
      + ((predecessors H V).toFinset \ (predecessors H U).toFinset).card *
          (splitLabel U).length
      + ((successors H U).toFinset \ (successors H V).toFinset).card *
          (splitLabel V).length
      + ((successors H V).toFinset \ (successors H U).toFinset).card *
          (splitLabel U).length := by
  simp only [get_cost]
  rw [length_filter_not_mem_eq_card_sdiff (predecessors_nodup hWF.2.1 U),
    length_filter_not_mem_eq_card_sdiff (predecessors_nodup hWF.2.1 V),
    length_filter_not_mem_eq_card_sdiff (successors_nodup hWF.2.1 U),
    length_filter_not_mem_eq_card_sdiff (successors_nodup hWF.2.1 V)]
  by_cases h : (U, V) ∈ H.edges <;> simp [hasEdge, h]

/-- Witness for C1: the pair `(A, B)` of the chain. -/
theorem get_cost_formula_witness :
    chain4.WF ∧ get_cost "A" "B" chain4 =
      (if ("A", "B") ∈ chain4.edges then 0
        else (splitLabel "A").length * (splitLabel "B").length)
      + ((predecessors chain4 "A").toFinset \
          (predecessors chain4 "B").toFinset).card * (splitLabel "B").length
      + ((predecessors chain4 "B").toFinset \
          (predecessors chain4 "A").toFinset).card * (splitLabel "A").length
      + ((successors chain4 "A").toFinset \
          (successors chain4 "B").toFinset).card * (splitLabel "B").length
      + ((successors chain4 "B").toFinset \
          (successors chain4 "A").toFinset).card * (splitLabel "A").length :=
  ⟨by decide, get_cost_formula "A" "B" chain4 (by decide)⟩

/-! ### The validity predicate (claim C2) -/

theorem check_semantic_iff {n1 n2 : String} {t : Option Table} {th : ℚ} :
    check_semantic n1 n2 t th = true ↔
      ∀ df, t = some df → ∀ s1 ∈ splitLabel n1, ∀ s2 ∈ splitLabel n2,
        th ≤ max (df s1 s2) (df s2 s1) := by
  cases t with
  | none => simp [check_semantic]
  | some df =>
    simp only [check_semantic, List.all_eq_true, decide_eq_true_eq,
      Option.some.injEq]
    constructor
    · intro h df' hdf' s1 h1 s2 h2
      subst hdf'
      exact not_lt.mp (h s1 h1 s2 h2)
    · intro h s1 h1 s2 h2
      exact not_lt.mpr (h df rfl s1 h1 s2 h2)

/-- Claim C2: `a_valid_pair U V H t th` returns true iff both gates pass —
the semantic gate (vacuous without a table; otherwise every cross pair of
atomic members has `max` of the two directional lookups at least the
threshold) and the acyclicity gate (the scratch contraction of `U` and `V`
with self-loops kept is an acyclic graph). -/
theorem a_valid_pair_iff (U V : String) (H : Graph) (t : Option Table)
    (th : ℚ) (hWF : H.WF) :
    a_valid_pair U V H t th = true ↔
      ((∀ df, t = some df → ∀ s1 ∈ splitLabel U, ∀ s2 ∈ splitLabel V,
          th ≤ max (df s1 s2) (df s2 s1)) ∧
        Acyclic (merge_nodes H U V true)) := by
  unfold a_valid_pair
  rw [Bool.and_eq_true, check_semantic_iff,
    isdag_iff_acyclic (merge_nodes_WF H U V true)]

/-- Witness for C2: the pair `(A, C)` of the chain (whose contraction closes
a cycle) with no table. -/
theorem a_valid_pair_iff_witness :
    chain4.WF ∧
      (a_valid_pair "A" "C" chain4 none 0 = true ↔
        ((∀ df, (none : Option Table) = some df →
            ∀ s1 ∈ splitLabel "A", ∀ s2 ∈ splitLabel "C",
              (0 : ℚ) ≤ max (df s1 s2) (df s2 s1)) ∧
          Acyclic (merge_nodes chain4 "A" "C" true))) :=
  ⟨by decide, a_valid_pair_iff "A" "C" chain4 none 0 (by decide)⟩

/-! ### Splitting and substring facts for the grounding claims -/

theorem isPrefixOf_self : ∀ l : List Char, l.isPrefixOf l = true
  | [] => rfl
  | c :: rest => by
    simp [List.isPrefixOf, isPrefixOf_self rest]

theorem isSubstrList_cons (d : List Char) (c : Char) (l : List Char) :
    isSubstrList d (c :: l) = (d.isPrefixOf (c :: l) || isSubstrList d l) :=
  rfl

theorem isSubstr_self (s : String) : isSubstr s s = true := by
  unfold isSubstr
  cases hd : s.data with
  | nil => rfl
  | cons c rest =>
    rw [isSubstrList_cons, isPrefixOf_self, Bool.true_or]

theorem delim_isPrefixOf_iff (c1 c2 : Char) (rest : List Char) :
    delim.isPrefixOf (c1 :: c2 :: rest) = true ↔ (',' = c1 ∧ '\n' = c2) := by
  show ([',', '\n'].isPrefixOf (c1 :: c2 :: rest)) = true ↔ _
  simp [List.isPrefixOf]

theorem delim_isPrefixOf_short (c : Char) :
    delim.isPrefixOf [c] = false ∧ delim.isPrefixOf ([] : List Char) = false := by
  constructor
  · show ([',', '\n'].isPrefixOf [c]) = false
    simp [List.isPrefixOf]
  · rfl

theorem splitDelim_of_no_delim :
    ∀ l : List Char, isSubstrList delim l = false → splitDelim l = [l]
  | [] => fun _ => rfl
  | [c] => fun _ => rfl
  | c1 :: c2 :: rest => by
    intro h
    rw [isSubstrList_cons, Bool.or_eq_false_iff] at h
    obtain ⟨h1, h2⟩ := h
    rw [isSubstrList_cons, Bool.or_eq_false_iff] at h2
    have hne : ¬ (c1 = ',' ∧ c2 = '\n') := by
      rintro ⟨rfl, rfl⟩
      rw [(delim_isPrefixOf_iff _ _ _).mpr ⟨rfl, rfl⟩] at h1
      exact absurd h1 (by simp)
    have hrec := splitDelim_of_no_delim (c2 :: rest)
      (by rw [isSubstrList_cons, Bool.or_eq_false_iff]; exact h2)
    unfold splitDelim
    rw [if_neg hne, hrec]

/-- Structure of `splitDelim`: the first piece is a front segment of the
input, and no piece contains the delimiter. -/
theorem splitDelim_pieces :
    ∀ l : List Char,
      (∃ hp rs, splitDelim l = hp :: rs ∧ ∃ t, hp ++ t = l) ∧
        ∀ p ∈ splitDelim l, isSubstrList delim p = false
  | [] => by
    refine ⟨⟨[], [], rfl, [], rfl⟩, ?_⟩
    intro p hp
    have : p = [] := by simpa [splitDelim] using hp
    rw [this]
    rfl
  | [c] => by
    refine ⟨⟨[c], [], rfl, [], rfl⟩, ?_⟩
    intro p hp
    have : p = [c] := by simpa [splitDelim] using hp
    rw [this, isSubstrList_cons]
    rw [(delim_isPrefixOf_short c).1]
    rfl
  | c1 :: c2 :: rest => by
    by_cases h : c1 = ',' ∧ c2 = '\n'
    · have heq : splitDelim (c1 :: c2 :: rest) = [] :: splitDelim rest := by
        conv_lhs => unfold splitDelim
        rw [if_pos h]
      refine ⟨⟨[], splitDelim rest, heq, c1 :: c2 :: rest, rfl⟩, ?_⟩
      · rw [heq]
        intro p hp
        rcases List.mem_cons.mp hp with rfl | hp
        · rfl
        · exact (splitDelim_pieces rest).2 p hp
    · obtain ⟨⟨hp, rs, heq, t, ht⟩, hpieces⟩ := splitDelim_pieces (c2 :: rest)
      have heq2 : splitDelim (c1 :: c2 :: rest) = (c1 :: hp) :: rs := by
        conv_lhs => unfold splitDelim
        rw [if_neg h, heq]
      refine ⟨⟨c1 :: hp, rs, heq2, t, by rw [List.cons_append, ht]⟩, ?_⟩
      rw [heq2]
      intro p hpmem
      rcases List.mem_cons.mp hpmem with rfl | hpmem
      · rw [isSubstrList_cons, Bool.or_eq_false_iff]
        refine ⟨?_, hpieces hp (heq ▸ List.mem_cons_self _ _)⟩
        cases hhp : hp with
        | nil => exact (delim_isPrefixOf_short c1).1
        | cons d hp' =>
          have hd : d = c2 := by
            rw [hhp, List.cons_append] at ht
            injection ht
          rw [← Bool.not_eq_true, delim_isPrefixOf_iff]
          rintro ⟨hc1, hc2⟩
          exact h ⟨hc1.symm, by rw [← hd]; exact hc2.symm⟩
      · exact hpieces p (heq ▸ List.mem_cons_of_mem _ hpmem)

theorem splitLabel_atomic {s : String} (h : hasDelim s = false) :
    splitLabel s = [s] := by
  unfold splitLabel
  rw [splitDelim_of_no_delim s.data h]
  rfl

theorem mem_splitLabel_no_delim {s m : String} (h : m ∈ splitLabel s) :
    hasDelim m = false := by
  unfold splitLabel at h
  rcases List.mem_map.mp h with ⟨p, hp, rfl⟩
  exact (splitDelim_pieces s.data).2 p hp

theorem cluster_ne_piece {n m : String} (hn : hasDelim n = true)
    (hm : m ∈ splitLabel n) : n ≠ m := by
  intro he
  rw [he, mem_splitLabel_no_delim hm] at hn
  exact absurd hn (by simp)

/-! ### The grounding expander (claim C10) -/

theorem foldl_nodes_mono {α : Type} (f : Graph → α → Graph)
    (hf : ∀ (g : Graph) (a : α), ∀ x ∈ g.nodes, x ∈ (f g a).nodes) :
    ∀ (l : List α) (g : Graph), ∀ x ∈ g.nodes, x ∈ (l.foldl f g).nodes
  | [], _ => fun _ hx => hx
  | a :: l, g => fun x hx => foldl_nodes_mono f hf l (f g a) x (hf g a x hx)

theorem foldl_WF {α : Type} (f : Graph → α → Graph)
    (hf : ∀ (g : Graph) (a : α), g.WF → (f g a).WF) :
    ∀ (l : List α) (g : Graph), g.WF → (l.foldl f g).WF
  | [], _ => fun h => h
  | a :: l, g => fun h => foldl_WF f hf l (f g a) (hf g a h)

theorem addEdge_nodes_mono {G : Graph} {u v x : String} (h : x ∈ G.nodes) :
    x ∈ (addEdge G u v).nodes := mem_addEdge_nodes.mpr (Or.inl h)

/-- Reduction equations for the `node_before` loop. -/
theorem intraEdges_cons_skip {m n nb : String} {G : Graph}
    {rest : List String} (h : ¬ isSubstr nb n = true) :
    intraEdges m n G (nb :: rest) = intraEdges m n G rest := by
  conv_lhs => unfold intraEdges
  rw [if_pos h]

theorem intraEdges_cons_stop {m n nb : String} {G : Graph}
    {rest : List String} (h : isSubstr nb n = true) (he : nb = m) :
    intraEdges m n G (nb :: rest) = G := by
  conv_lhs => unfold intraEdges
  rw [if_neg (not_not_intro h), if_pos he]

theorem intraEdges_cons_add {m n nb : String} {G : Graph}
    {rest : List String} (h : isSubstr nb n = true) (he : ¬ nb = m) :
    intraEdges m n G (nb :: rest) = intraEdges m n (addEdge G nb m) rest := by
  conv_lhs => unfold intraEdges
  rw [if_neg (not_not_intro h), if_neg he]

theorem intraEdges_nodes_mono {m n : String} :
    ∀ (order : List String) (G : Graph), ∀ x ∈ G.nodes,
      x ∈ (intraEdges m n G order).nodes
  | [], _ => fun _ hx => hx
  | nb :: rest, G => by
    intro x hx
    by_cases h : isSubstr nb n = true
    · by_cases he : nb = m
      · rw [intraEdges_cons_stop h he]
        exact hx
      · rw [intraEdges_cons_add h he]
        exact intraEdges_nodes_mono rest _ x (addEdge_nodes_mono hx)
    · rw [intraEdges_cons_skip h]
      exact intraEdges_nodes_mono rest G x hx

theorem intraEdges_WF {m n : String} :
    ∀ (order : List String) (G : Graph), G.WF → (intraEdges m n G order).WF
  | [], _ => fun h => h
  | nb :: rest, G => by
    intro hWF
    by_cases h : isSubstr nb n = true
    · by_cases he : nb = m
      · rw [intraEdges_cons_stop h he]
        exact hWF
      · rw [intraEdges_cons_add h he]
        exact intraEdges_WF rest _ (addEdge_WF hWF nb m)
    · rw [intraEdges_cons_skip h]
      exact intraEdges_WF rest G hWF

theorem intraEdges_nodes_sub {m n : String} :
    ∀ (order : List String) (G : Graph),
      (∀ nb ∈ order, isSubstr nb n = true → nb ∈ G.nodes) →
      ∀ x ∈ (intraEdges m n G order).nodes, x ∈ G.nodes ∨ x = m
  | [], _ => fun _ _ hx => Or.inl hx
  | nb :: rest, G => by
    intro hord x hx
    by_cases h : isSubstr nb n = true
    · by_cases he : nb = m
      · rw [intraEdges_cons_stop h he] at hx
        exact Or.inl hx
      · rw [intraEdges_cons_add h he] at hx
        have hnb : nb ∈ G.nodes := hord nb (List.mem_cons_self _ _) h
        have hord' : ∀ nb' ∈ rest, isSubstr nb' n = true →
            nb' ∈ (addEdge G nb m).nodes := fun nb' hnb' hs =>
          addEdge_nodes_mono (hord nb' (List.mem_cons_of_mem _ hnb') hs)
        rcases intraEdges_nodes_sub rest _ hord' x hx with hx | hx
        · rcases mem_addEdge_nodes.mp hx with hx | hx | hx
          · exact Or.inl hx
          · exact Or.inl (hx ▸ hnb)
          · exact Or.inr hx
        · exact Or.inr hx
    · rw [intraEdges_cons_skip h] at hx
      exact intraEdges_nodes_sub rest G
        (fun nb' hnb' hs => hord nb' (List.mem_cons_of_mem _ hnb') hs) x hx

/-- If `n` itself appears in the order, the intra-cluster loop for member
`m ≠ n` ends with `m` present (either `m` was already a node, or the loop
breaks at an occurrence of `m` in the order — in which case `m` had to be
present — or some matching `node_before` adds an edge to `m`). -/
theorem intraEdges_reaches {m n : String} :
    ∀ (order : List String) (G : Graph), n ∈ order → n ≠ m →
      (m ∈ G.nodes ∨ m ∉ order) → m ∈ (intraEdges m n G order).nodes
  | [], _ => by simp
  | nb :: rest, G => by
    intro hn hne hm
    by_cases h : isSubstr nb n = true
    · by_cases he : nb = m
      · rw [intraEdges_cons_stop h he]
        rcases hm with hm | hm
        · exact hm
        · exact absurd (he ▸ List.mem_cons_self nb rest) hm
      · rw [intraEdges_cons_add h he]
        exact intraEdges_nodes_mono rest _ m
          (mem_addEdge_nodes.mpr (Or.inr (Or.inr rfl)))
    · have hnb : nb ≠ n := fun he => h (he ▸ isSubstr_self n)
      rw [intraEdges_cons_skip h]
      refine intraEdges_reaches rest G ?_ hne ?_
      · rcases List.mem_cons.mp hn with hn | hn
        · exact absurd hn.symm hnb
        · exact hn
      · rcases hm with hm | hm
        · exact Or.inl hm
        · exact Or.inr (fun hmr => hm (List.mem_cons_of_mem _ hmr))

theorem predecessors_sub_nodes {G : Graph} (hWF : G.WF) (u : String) :
    ∀ x ∈ predecessors G u, x ∈ G.nodes := by
  intro x hx
  unfold predecessors at hx
  rcases List.mem_map.mp hx with ⟨e, he, rfl⟩
  exact (hWF.2.2 e (List.mem_filter.mp he).1).1

theorem successors_sub_nodes {G : Graph} (hWF : G.WF) (u : String) :
    ∀ x ∈ successors G u, x ∈ G.nodes := by
  intro x hx
  unfold successors at hx
  rcases List.mem_map.mp hx with ⟨e, he, rfl⟩
  exact (hWF.2.2 e (List.mem_filter.mp he).1).2

theorem inner_addEdge_fold_sub (p : String) :
    ∀ (ms : List String) (g : Graph),
      ∀ x ∈ (ms.foldl (fun g2 m => addEdge g2 p m) g).nodes,
        x ∈ g.nodes ∨ x ∈ ms ∨ x = p
  | [], _ => fun _ hx => Or.inl hx
  | m0 :: ms, g => by
    intro x hx
    rcases inner_addEdge_fold_sub p ms (addEdge g p m0) x hx with hx | hx | hx
    · rcases mem_addEdge_nodes.mp hx with hx | hx | hx
      · exact Or.inl hx
      · exact Or.inr (Or.inr hx)
      · exact Or.inr (Or.inl (hx ▸ List.mem_cons_self _ _))
    · exact Or.inr (Or.inl (List.mem_cons_of_mem _ hx))
    · exact Or.inr (Or.inr hx)

theorem inner_addEdge_fold_sub' (c : String) :
    ∀ (ms : List String) (g : Graph),
      ∀ x ∈ (ms.foldl (fun g2 m => addEdge g2 m c) g).nodes,
        x ∈ g.nodes ∨ x ∈ ms ∨ x = c
  | [], _ => fun _ hx => Or.inl hx
  | m0 :: ms, g => by
    intro x hx
    rcases inner_addEdge_fold_sub' c ms (addEdge g m0 c) x hx with hx | hx | hx
    · rcases mem_addEdge_nodes.mp hx with hx | hx | hx
      · exact Or.inl hx
      · exact Or.inr (Or.inl (hx ▸ List.mem_cons_self _ _))
      · exact Or.inr (Or.inr hx)
    · exact Or.inr (Or.inl (List.mem_cons_of_mem _ hx))
    · exact Or.inr (Or.inr hx)

theorem wireParents_nodes_sub {ms : List String} :
    ∀ (ps : List String) (g : Graph), (∀ p ∈ ps, p ∈ g.nodes) →
      ∀ x ∈ (wireParents ms ps g).nodes, x ∈ g.nodes ∨ x ∈ ms
  | [], _ => fun _ _ hx => Or.inl hx
  | p0 :: ps, g => by
    intro hps x hx
    have hmono : ∀ y ∈ g.nodes,
        y ∈ (ms.foldl (fun g2 m => addEdge g2 p0 m) g).nodes :=
      foldl_nodes_mono _ (fun _ _ _ hy => addEdge_nodes_mono hy) ms g
    have hrec := wireParents_nodes_sub ps
      (ms.foldl (fun g2 m => addEdge g2 p0 m) g)
      (fun p hp => hmono p (hps p (List.mem_cons_of_mem _ hp))) x hx
    rcases hrec with hx' | hx'
    · rcases inner_addEdge_fold_sub p0 ms g x hx' with h | h | h
      · exact Or.inl h
      · exact Or.inr h
      · exact Or.inl (h ▸ hps p0 (List.mem_cons_self _ _))
    · exact Or.inr hx'

theorem wireChildren_nodes_sub {ms : List String} :
    ∀ (cs : List String) (g : Graph), (∀ c ∈ cs, c ∈ g.nodes) →
      ∀ x ∈ (wireChildren ms cs g).nodes, x ∈ g.nodes ∨ x ∈ ms
  | [], _ => fun _ _ hx => Or.inl hx
  | c0 :: cs, g => by
    intro hcs x hx
    have hmono : ∀ y ∈ g.nodes,
        y ∈ (ms.foldl (fun g2 m => addEdge g2 m c0) g).nodes :=
      foldl_nodes_mono _ (fun _ _ _ hy => addEdge_nodes_mono hy) ms g
    have hrec := wireChildren_nodes_sub cs
      (ms.foldl (fun g2 m => addEdge g2 m c0) g)
      (fun c hc => hmono c (hcs c (List.mem_cons_of_mem _ hc))) x hx
    rcases hrec with hx' | hx'
    · rcases inner_addEdge_fold_sub' c0 ms g x hx' with h | h | h
      · exact Or.inl h
      · exact Or.inr h
      · exact Or.inl (h ▸ hcs c0 (List.mem_cons_self _ _))
    · exact Or.inr hx'

theorem wireParents_nodes_mono {ms ps : List String} {g : Graph} :
    ∀ x ∈ g.nodes, x ∈ (wireParents ms ps g).nodes :=
  foldl_nodes_mono _
    (fun g' p => foldl_nodes_mono _ (fun _ _ _ hy => addEdge_nodes_mono hy) ms g')
    ps g

theorem wireChildren_nodes_mono {ms cs : List String} {g : Graph} :
    ∀ x ∈ g.nodes, x ∈ (wireChildren ms cs g).nodes :=
  foldl_nodes_mono _
    (fun g' c => foldl_nodes_mono _ (fun _ _ _ hy => addEdge_nodes_mono hy) ms g')
    cs g

theorem wireIntra_nodes_mono {ms : List String} {n : String}
    {order : List String} {g : Graph} :
    ∀ x ∈ g.nodes, x ∈ (wireIntra ms n order g).nodes :=
  foldl_nodes_mono _ (fun g' m _ hy => intraEdges_nodes_mono order g' _ hy) ms g

theorem wireIntra_nodes_sub {n : String} {order : List String} :
    ∀ (ms : List String) (g : Graph),
      (∀ nb ∈ order, isSubstr nb n = true → nb ∈ g.nodes) →
      ∀ x ∈ (wireIntra ms n order g).nodes, x ∈ g.nodes ∨ x ∈ ms
  | [], _ => fun _ _ hx => Or.inl hx
  | m0 :: ms, g => by
    intro hord x hx
    have hord' : ∀ nb ∈ order, isSubstr nb n = true →
        nb ∈ (intraEdges m0 n g order).nodes := fun nb hnb hs =>
      intraEdges_nodes_mono order g nb (hord nb hnb hs)
    rcases wireIntra_nodes_sub ms (intraEdges m0 n g order) hord' x hx
      with hx' | hx'
    · rcases intraEdges_nodes_sub order g hord x hx' with h | h
      · exact Or.inl h
      · exact Or.inr (h ▸ List.mem_cons_self _ _)
    · exact Or.inr (List.mem_cons_of_mem _ hx')

theorem wireIntra_members {n : String} {order : List String} :
    ∀ (ms : List String) (g : Graph), n ∈ order →
      (∀ m' ∈ ms, n ≠ m' ∧ (m' ∈ g.nodes ∨ m' ∉ order)) →
      ∀ m ∈ ms, m ∈ (wireIntra ms n order g).nodes
  | [], _ => by simp
  | m0 :: ms, g => by
    intro hn hms m hm
    have hm0 := hms m0 (List.mem_cons_self _ _)
    have hm0mem : m0 ∈ (intraEdges m0 n g order).nodes :=
      intraEdges_reaches order g hn hm0.1 hm0.2
    rcases List.mem_cons.mp hm with rfl | hm
    · exact foldl_nodes_mono _
        (fun g' m' _ hy => intraEdges_nodes_mono order g' _ hy) ms _ m hm0mem
    · refine wireIntra_members ms (intraEdges m0 n g order) hn ?_ m hm
      intro m' hm'
      have h' := hms m' (List.mem_cons_of_mem _ hm')
      refine ⟨h'.1, ?_⟩
      rcases h'.2 with h2 | h2
      · exact Or.inl (intraEdges_nodes_mono order g m' h2)
      · exact Or.inr h2

theorem wireParents_WF {ms ps : List String} {g : Graph} (h : g.WF) :
    (wireParents ms ps g).WF :=
  foldl_WF _
    (fun g' _ h' => foldl_WF _ (fun g2 m h2 => addEdge_WF h2 _ m) ms g' h')
    ps g h

theorem wireChildren_WF {ms cs : List String} {g : Graph} (h : g.WF) :
    (wireChildren ms cs g).WF :=
  foldl_WF _
    (fun g' _ h' => foldl_WF _ (fun g2 m h2 => addEdge_WF h2 m _) ms g' h')
    cs g h

theorem wireIntra_WF {ms : List String} {n : String} {order : List String}
    {g : Graph} (h : g.WF) : (wireIntra ms n order g).WF :=
  foldl_WF _ (fun g' _ h' => intraEdges_WF order g' h') ms g h

/-- The node set of `processCluster`: under the no-cluster-substring side
conditions, processing cluster `n` removes `n`, adds exactly its members,
and touches nothing else. -/
theorem processCluster_mem (order : List String) (G : Graph) (n : String)
    (hWF : G.WF) (hn : n ∈ G.nodes) (hdelim : hasDelim n = true)
    (hord : ∀ nb ∈ order, isSubstr nb n = true → nb ∈ G.nodes)
    (hn_ord : n ∈ order)
    (hatom : ∀ m ∈ splitLabel n, m ∈ order → m ∈ G.nodes) :
    (∀ x, x ∈ (processCluster order G n).nodes ↔
      ((x ∈ G.nodes ∨ x ∈ splitLabel n) ∧ x ≠ n)) ∧
      (processCluster order G n).WF := by
  unfold processCluster
  set ms := splitLabel n with hms
  set G1 := wireParents ms (predecessors G n) G with hG1
  set G2 := wireChildren ms (successors G n) G1 with hG2
  set G3 := wireIntra ms n order G2 with hG3
  have hmono12 : ∀ x ∈ G.nodes, x ∈ G2.nodes := fun x hx =>
    wireChildren_nodes_mono x (wireParents_nodes_mono x hx)
  have hsub1 : ∀ x ∈ G1.nodes, x ∈ G.nodes ∨ x ∈ ms :=
    wireParents_nodes_sub _ _ (predecessors_sub_nodes hWF n)
  have hsub2 : ∀ x ∈ G2.nodes, x ∈ G.nodes ∨ x ∈ ms := by
    intro x hx
    rcases wireChildren_nodes_sub _ _
      (fun c hc => wireParents_nodes_mono c (successors_sub_nodes hWF n c hc))
      x hx with h | h
    · exact hsub1 x h
    · exact Or.inr h
  have hord2 : ∀ nb ∈ order, isSubstr nb n = true → nb ∈ G2.nodes :=
    fun nb hnb hs => hmono12 nb (hord nb hnb hs)
  have hsub3 : ∀ x ∈ G3.nodes, x ∈ G.nodes ∨ x ∈ ms := by
    intro x hx
    rcases wireIntra_nodes_sub ms G2 hord2 x hx with h | h
    · exact hsub2 x h
    · exact Or.inr h
  have hmembers : ∀ m ∈ ms, m ∈ G3.nodes := by
    refine wireIntra_members ms G2 hn_ord ?_
    intro m' hm'
    refine ⟨cluster_ne_piece hdelim hm', ?_⟩
    by_cases hmo : m' ∈ order
    · exact Or.inl (hmono12 m' (hatom m' hm' hmo))
    · exact Or.inr hmo
  have hWF3 : G3.WF := wireIntra_WF (wireChildren_WF (wireParents_WF hWF))
  refine ⟨?_, removeNode_WF hWF3 n⟩
  intro x
  constructor
  · intro hx
    have hx' := mem_removeNode_nodes.mp hx
    exact ⟨hsub3 x hx'.1, hx'.2⟩
  · rintro ⟨hx, hne⟩
    refine mem_removeNode_nodes.mpr ⟨?_, hne⟩
    rcases hx with hx | hx
    · exact wireIntra_nodes_mono x (hmono12 x hx)
    · exact hmembers x hx

/-- The main induction for the grounding pass: folding
`get_grounded_dag_auxiliary`'s loop body over the remaining nodes turns the
current node set into exactly the atomic identifiers, given the invariants
relating the current graph to the original summary graph `S`. -/
theorem ground_fold_inv (S : Graph) (order : List String)
    (horder_sub : ∀ x ∈ order, x ∈ S.nodes)
    (horder_all : ∀ x ∈ S.nodes, x ∈ order)
    (hsubfree : ∀ p ∈ S.nodes, ∀ q ∈ S.nodes, hasDelim p = true →
      hasDelim q = true → p ≠ q → isSubstr p q = false) :
    ∀ (rest : List String) (G : Graph),
      rest.Nodup → (∀ x ∈ rest, x ∈ S.nodes) →
      (∀ x ∈ S.nodes, hasDelim x = false → x ∈ G.nodes) →
      (∀ x ∈ rest, hasDelim x = true → x ∈ G.nodes) →
      (∀ x ∈ G.nodes, (∃ y ∈ S.nodes, x ∈ splitLabel y) ∨
        (x ∈ rest ∧ hasDelim x = true)) →
      (∀ y ∈ S.nodes, ∀ x ∈ splitLabel y, x ∈ G.nodes ∨
        ∃ z ∈ rest, hasDelim z = true ∧ x ∈ splitLabel z) →
      G.WF →
      (∀ x ∈ (rest.foldl
          (fun g n => if hasDelim n then processCluster order g n else g)
          G).nodes, ∃ y ∈ S.nodes, x ∈ splitLabel y) ∧
        (∀ y ∈ S.nodes, ∀ x ∈ splitLabel y, x ∈ (rest.foldl
          (fun g n => if hasDelim n then processCluster order g n else g)
          G).nodes) ∧
        (rest.foldl
          (fun g n => if hasDelim n then processCluster order g n else g)
          G).WF
  | [], G => by
    intro _ _ _ _ hc hd hWF
    refine ⟨?_, ?_, hWF⟩
    · intro x hx
      rcases hc x hx with h | h
      · exact h
      · exact absurd h.1 (List.not_mem_nil x)
    · intro y hy x hxy
      rcases hd y hy x hxy with h | h
      · exact h
      · obtain ⟨z, hz, _⟩ := h
        exact absurd hz (List.not_mem_nil z)
  | n :: rest', G => by
    intro hnd hrsub ha hb hc hd hWF
    obtain ⟨hn_nr, hnd'⟩ := List.nodup_cons.mp hnd
    have hnS : n ∈ S.nodes := hrsub n (List.mem_cons_self _ _)
    by_cases hdel : hasDelim n = true
    · have hstep : (n :: rest').foldl
          (fun g n => if hasDelim n then processCluster order g n else g) G =
          rest'.foldl
          (fun g n => if hasDelim n then processCluster order g n else g)
          (processCluster order G n) := by
        show rest'.foldl _ (if hasDelim n then processCluster order G n else G) = _
        rw [if_pos hdel]
      rw [hstep]
      have hnG : n ∈ G.nodes := hb n (List.mem_cons_self _ _) hdel
      have hord : ∀ nb ∈ order, isSubstr nb n = true → nb ∈ G.nodes := by
        intro nb hnb hs
        by_cases hnbd : hasDelim nb = true
        · by_cases hne : nb = n
          · exact hne ▸ hnG
          · rw [hsubfree nb (horder_sub nb hnb) n hnS hnbd hdel hne] at hs
            exact absurd hs (by simp)
        · have hnbd' : hasDelim nb = false := by
            revert hnbd
            cases hasDelim nb <;> simp
          exact ha nb (horder_sub nb hnb) hnbd'
      have hatom : ∀ m ∈ splitLabel n, m ∈ order → m ∈ G.nodes := by
        intro m hm hmo
        exact ha m (horder_sub m hmo) (mem_splitLabel_no_delim hm)
      obtain ⟨hiff, hWF'⟩ := processCluster_mem order G n hWF hnG hdel hord
        (horder_all n hnS) hatom
      refine ground_fold_inv S order horder_sub horder_all hsubfree rest'
        (processCluster order G n) hnd'
        (fun x hx => hrsub x (List.mem_cons_of_mem _ hx)) ?_ ?_ ?_ ?_ hWF'
      · intro x hxS hxdel
        refine (hiff x).mpr ⟨Or.inl (ha x hxS hxdel), ?_⟩
        intro he
        rw [he, hdel] at hxdel
        exact absurd hxdel (by simp)
      · intro x hx hxdel
        refine (hiff x).mpr
          ⟨Or.inl (hb x (List.mem_cons_of_mem _ hx) hxdel), ?_⟩
        intro he
        exact hn_nr (he ▸ hx)
      · intro x hx
        obtain ⟨hx', hne⟩ := (hiff x).mp hx
        rcases hx' with hx' | hx'
        · rcases hc x hx' with h | h
          · exact Or.inl h
          · refine Or.inr ⟨?_, h.2⟩
            rcases List.mem_cons.mp h.1 with he | he
            · exact absurd he hne
            · exact he
        · exact Or.inl ⟨n, hnS, hx'⟩
      · intro y hy x hxy
        rcases hd y hy x hxy with h | h
        · refine Or.inl ((hiff x).mpr ⟨Or.inl h, ?_⟩)
          intro he
          rw [← he, mem_splitLabel_no_delim hxy] at hdel
          exact absurd hdel (by simp)
        · obtain ⟨z, hz, hzdel, hxz⟩ := h
          rcases List.mem_cons.mp hz with rfl | hz'
          · exact Or.inl ((hiff x).mpr
              ⟨Or.inr hxz, Ne.symm (cluster_ne_piece hdel hxz)⟩)
          · exact Or.inr ⟨z, hz', hzdel, hxz⟩
    · have hdel' : hasDelim n = false := by
        revert hdel
        cases hasDelim n <;> simp
      have hstep : (n :: rest').foldl
          (fun g n => if hasDelim n then processCluster order g n else g) G =
          rest'.foldl
          (fun g n => if hasDelim n then processCluster order g n else g) G := by
        show rest'.foldl _ (if hasDelim n then processCluster order G n else G) = _
        rw [if_neg hdel]
      rw [hstep]
      refine ground_fold_inv S order horder_sub horder_all hsubfree rest' G hnd'
        (fun x hx => hrsub x (List.mem_cons_of_mem _ hx)) ha ?_ ?_ ?_ hWF
      · intro x hx hxdel
        exact hb x (List.mem_cons_of_mem _ hx) hxdel
      · intro x hx
        rcases hc x hx with h | h
        · exact Or.inl h
        · refine Or.inr ⟨?_, h.2⟩
          rcases List.mem_cons.mp h.1 with he | he
          · rw [he, hdel'] at h
            exact absurd h.2 (by simp)
          · exact he
      · intro y hy x hxy
        rcases hd y hy x hxy with h | h
        · exact Or.inl h
        · obtain ⟨z, hz, hzdel, hxz⟩ := h
          rcases List.mem_cons.mp hz with rfl | hz'
          · rw [hdel'] at hzdel
            exact absurd hzdel (by simp)
          · exact Or.inr ⟨z, hz', hzdel, hxz⟩

/-- Counterexample to claim C10 as stated: on the summary graph with the two
cluster nodes `A,\nB` and `A,\nB,\nC` (the first label a substring of the
second), the grounding's `node_before` loop re-adds the already-removed
cluster node `A,\nB` via `G.add_edge`, so a delimiter-containing cluster
label survives in the output node set. -/
theorem grounded_keeps_cluster_label :
    "A,\nB" ∈ (get_grounded_dag subLabelGraph).nodes ∧
      hasDelim "A,\nB" = true := by decide

/-- Claim C10 as amended: for every well-formed acyclic summary graph in
which no cluster label is a substring of a different cluster's label,
`get_grounded_dag` produces exactly the set of atomic identifiers obtained
by splitting every node label on the delimiter — none lost, none duplicated
(the node list stays duplicate-free), and no delimiter-containing label
remains. -/
theorem grounded_nodes_exactly_atoms (S : Graph) (hWF : S.WF) (hA : Acyclic S)
    (hsubfree : ∀ p ∈ S.nodes, ∀ q ∈ S.nodes, hasDelim p = true →
      hasDelim q = true → p ≠ q → isSubstr p q = false) :
    (get_grounded_dag S).nodes.toFinset =
        (S.nodes.flatMap splitLabel).toFinset ∧
      (get_grounded_dag S).nodes.Nodup ∧
      ∀ m ∈ (get_grounded_dag S).nodes, hasDelim m = false := by
  have horder_sub : ∀ x ∈ topological_sort S, x ∈ S.nodes :=
    topological_sort_sub
  have horder_all := mem_topological_sort hWF hA
  have hc0 : ∀ x ∈ S.nodes, (∃ y ∈ S.nodes, x ∈ splitLabel y) ∨
      (x ∈ S.nodes ∧ hasDelim x = true) := by
    intro x hx
    by_cases hdel : hasDelim x = true
    · exact Or.inr ⟨hx, hdel⟩
    · have hdel' : hasDelim x = false := by
        revert hdel
        cases hasDelim x <;> simp
      refine Or.inl ⟨x, hx, ?_⟩
      rw [splitLabel_atomic hdel']
      exact List.mem_singleton.mpr rfl
  have hd0 : ∀ y ∈ S.nodes, ∀ x ∈ splitLabel y, x ∈ S.nodes ∨
      ∃ z ∈ S.nodes, hasDelim z = true ∧ x ∈ splitLabel z := by
    intro y hy x hxy
    by_cases hdel : hasDelim y = true
    · exact Or.inr ⟨y, hy, hdel, hxy⟩
    · have hdel' : hasDelim y = false := by
        revert hdel
        cases hasDelim y <;> simp
      rw [splitLabel_atomic hdel'] at hxy
      rw [List.mem_singleton.mp hxy]
      exact Or.inl hy
  have hmain := ground_fold_inv S (topological_sort S) horder_sub horder_all
    hsubfree S.nodes S hWF.1 (fun x hx => hx) (fun x hx _ => hx)
    (fun x hx _ => hx) hc0 hd0 hWF
  have heq : get_grounded_dag S = S.nodes.foldl
      (fun g n => if hasDelim n then
        processCluster (topological_sort S) g n else g) S := rfl
  rw [heq]
  refine ⟨?_, hmain.2.2.1, ?_⟩
  · ext x
    rw [List.mem_toFinset, List.mem_toFinset, List.mem_flatMap]
    constructor
    · exact fun hx => hmain.1 x hx
    · rintro ⟨y, hy, hxy⟩
      exact hmain.2.1 y hy x hxy
  · intro m hm
    obtain ⟨y, _, hmy⟩ := hmain.1 m hm
    exact mem_splitLabel_no_delim hmy

/-- A well-behaved summary graph for the C10 witness. -/
def summary2 : Graph :=
  { nodes := ["A,\nB", "C"], edges := [("A,\nB", "C")] }

/-- Witness for C10 (amended), on a two-node summary graph with one cluster. -/
theorem grounded_nodes_exactly_atoms_witness :
    summary2.WF ∧ Acyclic summary2 ∧
      (∀ p ∈ summary2.nodes, ∀ q ∈ summary2.nodes, hasDelim p = true →
        hasDelim q = true → p ≠ q → isSubstr p q = false) ∧
      ((get_grounded_dag summary2).nodes.toFinset =
          (summary2.nodes.flatMap splitLabel).toFinset ∧
        (get_grounded_dag summary2).nodes.Nodup ∧
        ∀ m ∈ (get_grounded_dag summary2).nodes, hasDelim m = false) :=
  ⟨by decide, (isdag_iff_acyclic (by decide)).mp (by decide), by decide,
    grounded_nodes_exactly_atoms summary2 (by decide)
      ((isdag_iff_acyclic (by decide)).mp (by decide)) (by decide)⟩

end CausalDag
